import Mathlib

set_option maxHeartbeats 1000000
set_option maxRecDepth 4000

/-!
Shallow embedding of the two fixed-capacity event-queue backends of the
repository (programs/openbook-v2-cu):

* `EventQueue` with `EventQueueHeader` models `state/ringbuf.rs` — a
  contiguous ring buffer with `head`/`count` window and a `seq_num` counter.
* `DLLEventQueue` with `DLLHeader` and `Node` models `state/dll.rs` — an
  index-linked circular doubly linked list over a slot arena together with a
  singly linked free chain.

Machine integers are modelled as `Nat`; the `as u16` and `as u32` casts of
the source are written as `% 65536` and `% 4294967296` at every store that
performs them.  The opaque `AnyEvent` payload is modelled as a `Nat`.
A `none` result models a panic of the source (a failed `assert!` or an
out-of-bounds slice index); a typed `Err` of the source is an
`Except.error`, paired with the (unchanged) receiver state, mirroring the
early `return Err(..)` of a `&mut self` method that has not mutated anything.
-/

/-- Sentinel index `NULL = u16::MAX` from dll.rs. -/
def NULL : Nat := 65535

/-- One arena slot of the linked backend: u16 `next`/`prev` links plus the
payload (`event`). Mirrors `Node` of dll.rs (padding omitted). -/
structure Node where
  next : Nat
  prev : Nat
  event : Nat
deriving DecidableEq

/-- Header of the linked backend, mirrors `DLLHeader` of dll.rs
(padding omitted). -/
structure DLLHeader where
  free_head : Nat
  used_head : Nat
  count : Nat
  seq_num : Nat
deriving DecidableEq

/-- The linked event queue: header plus the slot arena. The arena length
plays the role of the compile-time capacity `MAX_NUM_EVENTS`. -/
structure DLLEventQueue where
  header : DLLHeader
  nodes : List Node
deriving DecidableEq

/-- Mirrors `Node::is_free`: a slot is free iff its `prev` tag is `NULL`. -/
def Node.is_free (n : Node) : Bool := n.prev == NULL

/-- Default node used by the total indexing helper `nodeAt`. -/
def d0 : Node := ⟨0, 0, 0⟩

/-- Total read of a slot (used in specifications; out-of-range reads in the
operations themselves are modelled with `List.getElem?`). -/
def nodeAt (q : DLLEventQueue) (s : Nat) : Node := q.nodes.getD s d0

/-- Read-modify-write of one slot; `none` models the out-of-bounds panic of
`self.nodes[i]` in the source. -/
def setNode? (ns : List Node) (i : Nat) (f : Node → Node) : Option (List Node) :=
  match ns[i]? with
  | none => none
  | some n => some (ns.set i (f n))

/-- Mirrors `DLLEventQueue::init` run on a zero-filled arena of capacity `N`:
header reset to `free_head = 0`, `used_head = NULL`, `count = 0`,
`seq_num = 0`; slot `i` linked to `i+1` with `prev = NULL`, and the last
slot's `next` overwritten with `NULL`. -/
def dllInit (N : Nat) : DLLEventQueue :=
  { header := { free_head := 0, used_head := NULL, count := 0, seq_num := 0 },
    nodes := (List.range N).map fun i =>
      { next := if i + 1 = N then NULL else (i + 1) % 65536, prev := NULL, event := 0 } }

/-- Mirrors `DLLEventQueue::push_back`. The source `assert!(!self.is_full())`
is a trap, modelled as `none`; there is no typed error path. The two
branches follow the source: an empty queue makes the consumed free slot a
self-referencing singleton chain; otherwise the slot is linked in as the new
tail, immediately before the current `used_head`. -/
def DLLEventQueue.push_back (q : DLLEventQueue) (value : Nat) : Option DLLEventQueue :=
  if q.header.count = q.nodes.length then none
  else
    let slot := q.header.free_head
    if q.header.count = 0 then
      match q.nodes[slot]? with
      | none => none
      | some slotNode =>
        let header1 := { q.header with free_head := slotNode.next % 65536,
                                       used_head := slot % 65536 }
        let header2 := { header1 with count := header1.count + 1,
                                      seq_num := header1.seq_num + 1 }
        match setNode? q.nodes slot
            (fun n => { n with event := value, next := slot % 65536, prev := slot % 65536 }) with
        | none => none
        | some nodes1 => some { header := header2, nodes := nodes1 }
    else
      let newNext := q.header.used_head
      match q.nodes[newNext]? with
      | none => none
      | some headNode =>
        let newPrev := headNode.prev
        match setNode? q.nodes newPrev (fun n => { n with next := slot % 65536 }) with
        | none => none
        | some nodes1 =>
          match setNode? nodes1 newNext (fun n => { n with prev := slot % 65536 }) with
          | none => none
          | some nodes2 =>
            match nodes2[slot]? with
            | none => none
            | some slotNode =>
              let header1 := { q.header with free_head := slotNode.next % 65536 }
              let header2 := { header1 with count := header1.count + 1,
                                            seq_num := header1.seq_num + 1 }
              match setNode? nodes2 slot
                  (fun n => { n with event := value, next := newNext % 65536,
                                     prev := newPrev % 65536 }) with
              | none => none
              | some nodes3 => some { header := header2, nodes := nodes3 }

/-- Mirrors `DLLEventQueue::delete_slot`. `some (Except.error (), q)` is the
typed `InvalidSlot` error (the method returns before mutating anything);
`none` is the out-of-bounds panic of `self.nodes[slot]` reached when the
queue is non-empty and `slot` is outside the arena. On success the removed
slot is unlinked from the used chain, pushed onto the free chain, tagged
free via `prev = NULL`, and its payload returned. -/
def DLLEventQueue.delete_slot (q : DLLEventQueue) (slot : Nat) :
    Option (Except Unit Nat × DLLEventQueue) :=
  if q.header.count = 0 then some (Except.error (), q)
  else
    match q.nodes[slot]? with
    | none => none
    | some node =>
      if node.is_free then some (Except.error (), q)
      else
        let prevSlot := node.prev
        let nextSlot := node.next
        let nextFree := q.header.free_head
        match setNode? q.nodes prevSlot (fun n => { n with next := nextSlot % 65536 }) with
        | none => none
        | some nodes1 =>
          match setNode? nodes1 nextSlot (fun n => { n with prev := prevSlot % 65536 }) with
          | none => none
          | some nodes2 =>
            let header1 : DLLHeader := { q.header with free_head := slot % 65536 }
            let header2 : DLLHeader :=
              if header1.count = 1 then { header1 with used_head := NULL }
              else if header1.used_head = slot then
                { header1 with used_head := nextSlot % 65536 }
              else header1
            let header3 := { header2 with count := header2.count - 1 }
            match setNode? nodes2 slot
                (fun n => { n with next := nextFree % 65536, prev := NULL }) with
            | none => none
            | some nodes3 =>
              match nodes3[slot]? with
              | none => none
              | some finalNode =>
                some (Except.ok finalNode.event, { header := header3, nodes := nodes3 })

/-- Mirrors `DLLEventQueue::delete`: delete at the current `used_head`. -/
def DLLEventQueue.delete (q : DLLEventQueue) : Option (Except Unit Nat × DLLEventQueue) :=
  q.delete_slot q.header.used_head

/-- Mirrors `DLLEventQueueIterator::next` driven to exhaustion: starting at
`slot`, follow `next` for `fuel` steps, yielding `(slot, event)` pairs like
the source's `EventWithSlot`. `none` models an out-of-bounds panic. -/
def dllIterFrom (q : DLLEventQueue) : Nat → Nat → Option (List (Nat × Nat))
  | _, 0 => some []
  | slot, fuel + 1 =>
    match q.nodes[slot]? with
    | none => none
    | some n =>
      match dllIterFrom q n.next fuel with
      | none => none
      | some rest => some ((slot, n.event) :: rest)

/-- Mirrors `DLLEventQueue::iter`: starts at `used_head` and yields exactly
`count` elements. -/
def DLLEventQueue.iterPairs (q : DLLEventQueue) : Option (List (Nat × Nat)) :=
  dllIterFrom q q.header.used_head q.header.count

/-- Slots visited by the iterator (the used chain as observed from
`used_head`), empty when the iterator traps. -/
def usedChain (q : DLLEventQueue) : List Nat :=
  (q.iterPairs.getD []).map Prod.fst

/-- Walk of the free chain: follow `next` from `s` until `NULL` or until the
fuel runs out. -/
def freeWalk (q : DLLEventQueue) : Nat → Nat → List Nat
  | _, 0 => []
  | s, fuel + 1 => if s = NULL then [] else s :: freeWalk q ((nodeAt q s).next) fuel

/-- The free chain observed from `free_head` (fuel = arena size). -/
def freeChain (q : DLLEventQueue) : List Nat :=
  freeWalk q q.header.free_head q.nodes.length

/-- Header of the ring backend, mirrors `EventQueueHeader` of ringbuf.rs. -/
structure EventQueueHeader where
  head : Nat
  count : Nat
  seq_num : Nat
deriving DecidableEq

/-- The ring event queue: header plus the payload buffer; the buffer length
plays the role of `MAX_NUM_EVENTS`. -/
structure EventQueue where
  header : EventQueueHeader
  buf : List Nat
deriving DecidableEq

/-- The zero-filled starting state of the ring backend (the account is
zero-initialised by the loader; the ring has no `init` method). -/
def ringInit (len : Nat) : EventQueue :=
  { header := { head := 0, count := 0, seq_num := 0 }, buf := List.replicate len 0 }

/-- Mirrors `EventQueue::push_back`: `Err(value)` on a full queue with the
state untouched; otherwise writes at `(head + count) % len`, bumps `count`
and `seq_num`. -/
def EventQueue.push_back (q : EventQueue) (value : Nat) : Except Nat Unit × EventQueue :=
  if q.header.count = q.buf.length then (Except.error value, q)
  else
    let slot := (q.header.head + q.header.count) % q.buf.length
    let buf1 := q.buf.set slot value
    (Except.ok (),
      { header := { q.header with count := (q.header.count + 1) % 4294967296,
                                  seq_num := q.header.seq_num + 1 },
        buf := buf1 })

/-- Mirrors `EventQueue::peek_front`: `some none` is the source's `None` on
an empty queue; the outer `none` models an out-of-bounds panic at `buf[head]`. -/
def EventQueue.peek_front (q : EventQueue) : Option (Option Nat) :=
  if q.header.count = 0 then some none
  else
    match q.buf[q.header.head]? with
    | none => none
    | some v => some (some v)

/-- Mirrors `EventQueue::pop_front`: typed `Err` on an empty queue (state
untouched); otherwise returns `buf[head]`, decrements `count` and advances
`head` modulo the buffer length. `seq_num` is not touched. -/
def EventQueue.pop_front (q : EventQueue) : Option (Except Unit Nat × EventQueue) :=
  if q.header.count = 0 then some (Except.error (), q)
  else
    match q.buf[q.header.head]? with
    | none => none
    | some value =>
      let header1 := { q.header with count := (q.header.count - 1) % 4294967296 }
      let header2 := { header1 with head := ((q.header.head + 1) % q.buf.length) % 4294967296 }
      some (Except.ok value, { q with header := header2 })

/-- Mirrors `EventQueue::revert_pushes`: typed `Err` when
`desired_len > count` (state untouched); otherwise truncates `count` to
`desired_len` and rewinds `seq_num` by the dropped length. -/
def EventQueue.revert_pushes (q : EventQueue) (desired_len : Nat) :
    Except Unit Unit × EventQueue :=
  if desired_len ≤ q.header.count then
    let len_diff := q.header.count - desired_len
    (Except.ok (),
      { q with header := { q.header with count := desired_len % 4294967296,
                                         seq_num := q.header.seq_num - len_diff } })
  else (Except.error (), q)

/-! Operation sequences over the two backends, used to state the laws that
quantify over whole call histories. A run aborts (`none`) as soon as an
operation traps or returns a typed error, so a successful run certifies the
preconditions of every call in it. -/

/-- One ring-backend call. -/
inductive RingOp where
  | push (v : Nat)
  | pop
deriving DecidableEq

/-- The values passed to `push_back` in a call sequence, in order. -/
def ringPushedValues : List RingOp → List Nat
  | [] => []
  | RingOp.push v :: ops => v :: ringPushedValues ops
  | RingOp.pop :: ops => ringPushedValues ops

/-- Run a ring call sequence, collecting the values returned by `pop_front`
in order; `none` when some call fails. -/
def ringRun (q : EventQueue) : List RingOp → Option (List Nat × EventQueue)
  | [] => some ([], q)
  | RingOp.push v :: ops =>
    match q.push_back v with
    | (Except.ok _, q1) => ringRun q1 ops
    | (Except.error _, _) => none
  | RingOp.pop :: ops =>
    match q.pop_front with
    | some (Except.ok v, q1) =>
      match ringRun q1 ops with
      | some (vs, qf) => some (v :: vs, qf)
      | none => none
    | _ => none

/-- One linked-backend call. -/
inductive DLLOp where
  | push (v : Nat)
  | del (slot : Nat)
deriving DecidableEq

/-- Run a linked call sequence; `none` when some call traps or returns an
error. -/
def dllRun (q : DLLEventQueue) : List DLLOp → Option DLLEventQueue
  | [] => some q
  | DLLOp.push v :: ops =>
    match q.push_back v with
    | some q1 => dllRun q1 ops
    | none => none
  | DLLOp.del s :: ops =>
    match q.delete_slot s with
    | some (Except.ok _, q1) => dllRun q1 ops
    | _ => none

/-- Run a linked call sequence while maintaining the journal of live
elements demanded by the order-preservation law: each successful push
appends the pair (slot it was placed in, payload); each successful
`delete_slot s` drops the entry whose slot is `s`. The journal therefore
lists exactly the payloads that were pushed and not deleted, in insertion
order. -/
def dllRunModel (q : DLLEventQueue) (model : List (Nat × Nat)) :
    List DLLOp → Option (DLLEventQueue × List (Nat × Nat))
  | [] => some (q, model)
  | DLLOp.push v :: ops =>
    match q.push_back v with
    | some q1 => dllRunModel q1 (model ++ [(q.header.free_head, v)]) ops
    | none => none
  | DLLOp.del s :: ops =>
    match q.delete_slot s with
    | some (Except.ok _, q1) => dllRunModel q1 (model.filter fun p => p.1 != s) ops
    | _ => none

/-- Number of pushes in a linked call sequence. -/
def dllPushCount : List DLLOp → Nat
  | [] => 0
  | DLLOp.push _ :: ops => dllPushCount ops + 1
  | DLLOp.del _ :: ops => dllPushCount ops

/-! Abstractions and invariants used to state and prove the queue laws. -/

/-- Abstract content of the ring queue: the `count` live elements starting
at `head`, wrapping modulo the buffer length. -/
def ringAbs (q : EventQueue) : List Nat :=
  (List.range q.header.count).map fun i => q.buf.getD ((q.header.head + i) % q.buf.length) 0

/-- Well-formedness of a ring state, preserved by every successful call and
true of the zeroed start state of any positive capacity below 2^32. -/
structure RingInv (q : EventQueue) : Prop where
  head_lt : q.header.head < q.buf.length
  count_le : q.header.count ≤ q.buf.length
  len_lt : q.buf.length < 4294967296

/-- The slots of `l` form a circular chain in `next` order: the `next` field
of the i-th slot names the (i+1 mod |l|)-th slot. -/
def CycNext (q : DLLEventQueue) (l : List Nat) : Prop :=
  ∀ i, i < l.length → (nodeAt q (l.getD i 0)).next = l.getD ((i + 1) % l.length) 0

/-- The `prev` field of the (i+1 mod |l|)-th slot names the i-th slot. -/
def CycPrev (q : DLLEventQueue) (l : List Nat) : Prop :=
  ∀ i, i < l.length → (nodeAt q (l.getD ((i + 1) % l.length) 0)).prev = l.getD i 0

/-- The slots of `l` form the singly linked free chain: each one's `next`
names its successor in `l` (`NULL` after the last), and each one carries the
free tag `prev = NULL`. -/
def FreeChainInv (q : DLLEventQueue) (l : List Nat) : Prop :=
  ∀ j, j < l.length → (nodeAt q (l.getD j 0)).next = l.getD (j + 1) NULL ∧
    (nodeAt q (l.getD j 0)).prev = NULL

/-- Every journal entry's payload is stored at its slot. -/
def EventsOk (q : DLLEventQueue) (used : List (Nat × Nat)) : Prop :=
  ∀ p ∈ used, (nodeAt q p.1).event = p.2

/-- Full structural invariant of the linked backend, relating a state to the
journal `used` of live (slot, payload) pairs in insertion order and to the
free chain `free` in chain order. -/
structure DLLInv (q : DLLEventQueue) (used : List (Nat × Nat)) (free : List Nat) : Prop where
  perm : (used.map Prod.fst ++ free).Perm (List.range q.nodes.length)
  small : q.nodes.length ≤ 65535
  count_eq : q.header.count = used.length
  uhead : q.header.used_head = (used.map Prod.fst).headD NULL
  fhead : q.header.free_head = free.headD NULL
  cnext : CycNext q (used.map Prod.fst)
  cprev : CycPrev q (used.map Prod.fst)
  fchain : FreeChainInv q free
  events : EventsOk q used

/-! Concrete states used by counterexamples and witnesses. -/

/-- A full linked queue of capacity 1 (obtained by pushing payload 7 into
`dllInit 1`). -/
def dllFull1 : DLLEventQueue := ⟨⟨65535, 0, 1, 1⟩, [⟨0, 0, 7⟩]⟩

/-- A non-empty linked queue of capacity 1 (same shape as `dllFull1`), used
to exercise `delete_slot` with an out-of-range index. -/
def dllOne1 : DLLEventQueue := ⟨⟨65535, 0, 1, 1⟩, [⟨0, 0, 7⟩]⟩

/-- The call sequence of spec Scenario B (capacity 5). -/
def sB : List DLLOp :=
  [DLLOp.push 10, DLLOp.push 20, DLLOp.del 0, DLLOp.del 1, DLLOp.push 30, DLLOp.push 40]

/-- The state reached after the first five calls of Scenario B (through the
first reuse push, payload 30). -/
def c2AfterFive : DLLEventQueue :=
  ⟨⟨0, 1, 1, 3⟩, [⟨2, 65535, 10⟩, ⟨1, 1, 30⟩, ⟨3, 65535, 0⟩, ⟨4, 65535, 0⟩, ⟨65535, 65535, 0⟩]⟩

/-- The state a successful ring push produces (the modular casts already
resolved; equal to the operation's result on well-formed states). -/
def ringPushState (q : EventQueue) (v : Nat) : EventQueue :=
  { header := { q.header with count := q.header.count + 1, seq_num := q.header.seq_num + 1 },
    buf := q.buf.set ((q.header.head + q.header.count) % q.buf.length) v }

/-- The state a successful ring pop produces. -/
def ringPopState (q : EventQueue) : EventQueue :=
  { q with header := { q.header with head := (q.header.head + 1) % q.buf.length,
                                     count := q.header.count - 1 } }

/-- Total read-modify-write of one slot, the in-range denotation of
`setNode?`. -/
def setN (ns : List Node) (i : Nat) (f : Node → Node) : List Node :=
  ns.set i (f (ns.getD i d0))

/-- The arena after the two relink writes of a push into a non-empty queue:
the old tail's `next` and the old head's `prev` both point at the consumed
free slot. -/
def pushNodes2 (q : DLLEventQueue) : List Node :=
  setN (setN q.nodes ((nodeAt q q.header.used_head).prev)
      (fun n => { n with next := q.header.free_head % 65536 }))
    q.header.used_head (fun n => { n with prev := q.header.free_head % 65536 })

/-- The arena after a push into a non-empty queue: the relinks of
`pushNodes2` followed by the full write of the consumed slot. -/
def pushNodes3 (q : DLLEventQueue) (v : Nat) : List Node :=
  setN (pushNodes2 q) q.header.free_head
    (fun n => { n with event := v, next := q.header.used_head % 65536,
                       prev := (nodeAt q q.header.used_head).prev % 65536 })

/-- The arena after the two unlink writes of `delete_slot s`: the
neighbours of `s` are linked to each other. -/
def delNodes2 (q : DLLEventQueue) (s : Nat) : List Node :=
  setN (setN q.nodes (nodeAt q s).prev (fun n => { n with next := (nodeAt q s).next % 65536 }))
    (nodeAt q s).next (fun n => { n with prev := (nodeAt q s).prev % 65536 })

/-- The arena after `delete_slot s`: the unlinks of `delNodes2` followed by
pushing `s` onto the free chain and tagging it free. -/
def delNodes3 (q : DLLEventQueue) (s : Nat) : List Node :=
  setN (delNodes2 q s) s
    (fun n => { n with next := q.header.free_head % 65536, prev := NULL })

/-- The header after `delete_slot s` (same update shape as the operation
body). -/
def delHeader (q : DLLEventQueue) (s : Nat) : DLLHeader :=
  let header1 : DLLHeader := { q.header with free_head := s % 65536 }
  let header2 : DLLHeader :=
    if header1.count = 1 then { header1 with used_head := NULL }
    else if header1.used_head = s then { header1 with used_head := (nodeAt q s).next % 65536 }
    else header1
  { header2 with count := header2.count - 1 }

/-- A linked queue of capacity 4 holding two elements (payloads 11, 12 in
slots 0, 1), used to witness the push frame property. -/
def c10Before : DLLEventQueue :=
  ⟨⟨2, 0, 2, 2⟩, [⟨1, 1, 11⟩, ⟨0, 0, 12⟩, ⟨3, 65535, 0⟩, ⟨65535, 65535, 0⟩]⟩

/-- The state `c10Before` reaches after pushing payload 9 (into slot 2). -/
def c10After : DLLEventQueue :=
  ⟨⟨3, 0, 3, 3⟩, [⟨1, 2, 11⟩, ⟨2, 0, 12⟩, ⟨0, 1, 9⟩, ⟨65535, 65535, 0⟩]⟩

/-- A capacity-2 linked queue holding one element (payload 5 in slot 0),
reached by one push after init; used as the C7 witness state. -/
def c7Queue : DLLEventQueue := ⟨⟨1, 0, 1, 1⟩, [⟨0, 0, 5⟩, ⟨65535, 65535, 0⟩]⟩

/-- The capacity-3 state after pushing 3 and 4 and then deleting both
(slots 1 then 0); used as the C6 witness state. -/
def c6Queue : DLLEventQueue :=
  ⟨⟨0, 65535, 0, 2⟩, [⟨1, 65535, 3⟩, ⟨2, 65535, 4⟩, ⟨65535, 65535, 0⟩]⟩

/-- The capacity-2 state after pushing 5 and 6 and deleting slot 0; used as
the C3 witness state. -/
def c3Queue : DLLEventQueue := ⟨⟨0, 1, 1, 2⟩, [⟨65535, 65535, 5⟩, ⟨1, 1, 6⟩]⟩

/-! Theorems. Helper lemmas come first, then one theorem per claim. -/

theorem getD_set_self {α : Type} (l : List α) (i : Nat) (a d : α) (h : i < l.length) :
    (l.set i a).getD i d = a := by
  rw [List.getD_eq_getElem?_getD, List.getElem?_set_self h]
  rfl

theorem getD_set_ne {α : Type} (l : List α) (i j : Nat) (a d : α) (h : i ≠ j) :
    (l.set i a).getD j d = l.getD j d := by
  rw [List.getD_eq_getElem?_getD, List.getElem?_set_ne h, ← List.getD_eq_getElem?_getD]

/-- Two congruent positions of a strict window around `a` coincide. -/
theorem add_mod_window_inj {a i c len : Nat} (hi : i < c) (hc : c < len)
    (h : (a + i) % len = (a + c) % len) : False := by
  have h2 : len ∣ (a + c) - (a + i) := (Nat.modEq_iff_dvd' (by omega)).mp h
  have h3 : (a + c) - (a + i) = c - i := by omega
  rw [h3] at h2
  have h4 := Nat.eq_zero_of_dvd_of_lt h2 (by omega)
  omega

/-- On a non-empty queue with a live in-range slot, `delete_slot` either
panics on a corrupt link or succeeds; it never reports `InvalidSlot`. -/
theorem delete_slot_not_error (q : DLLEventQueue) (slot : Nat) (n : Node)
    (h0 : ¬ q.header.count = 0) (hg : q.nodes[slot]? = some n) (hf : n.is_free = false) :
    q.delete_slot slot = none ∨ ∃ e q1, q.delete_slot slot = some (Except.ok e, q1) := by
  unfold DLLEventQueue.delete_slot
  simp only [h0, if_false, hg, hf, Bool.false_eq_true, if_neg]
  split
  · exact Or.inl rfl
  · split
    · exact Or.inl rfl
    · split
      · exact Or.inl rfl
      · split
        · exact Or.inl rfl
        · exact Or.inr ⟨_, _, rfl⟩

/-- C1 (amended): on a full queue (`count = N`) the ring backend's
`push_back` returns the typed `Full` error carrying the rejected value and
leaves the state unchanged, while the linked backend's `push_back` traps
(its `assert!(!self.is_full())` fails) and so returns no result at all,
mutating nothing. -/
theorem C1_push_full_behavior :
    (∀ (q : EventQueue) (v : Nat), q.header.count = q.buf.length →
      q.push_back v = (Except.error v, q)) ∧
    (∀ (q : DLLEventQueue) (v : Nat), q.header.count = q.nodes.length →
      q.push_back v = none) := by
  constructor
  · intro q v h
    unfold EventQueue.push_back
    rw [if_pos h]
  · intro q v h
    unfold DLLEventQueue.push_back
    rw [if_pos h]

/-- C1 counterexample: `dllFull1` is full, yet the linked `push_back` does
not return a `Full` error there — its Rust signature has no error path at
all; the call traps (modelled as `none`), refuting the claim that both
backends return `Full` on a full queue. -/
theorem C1_counterexample :
    dllFull1.header.count = dllFull1.nodes.length ∧
    DLLEventQueue.push_back dllFull1 8 = none :=
  ⟨rfl, rfl⟩

/-- C1 witness: both parts of the amended theorem applied at concrete full
states. -/
theorem C1_witness :
    EventQueue.push_back ⟨⟨0, 2, 2⟩, [5, 6]⟩ 9 = (Except.error 9, ⟨⟨0, 2, 2⟩, [5, 6]⟩) ∧
    DLLEventQueue.push_back dllFull1 8 = none :=
  ⟨C1_push_full_behavior.1 ⟨⟨0, 2, 2⟩, [5, 6]⟩ 9 rfl, C1_push_full_behavior.2 dllFull1 8 rfl⟩

/-- C2 counterexample: running Scenario B through its fifth call (the first
reuse push, payload 30) lands the payload in slot 1, not slot 0: the
most-recently-freed slot is reused first, refuting the claimed 0-then-1
order. -/
theorem C2_counterexample :
    dllRun (dllInit 5) (sB.take 5) = some c2AfterFive ∧
    (nodeAt c2AfterFive 1).event = 30 ∧ (nodeAt c2AfterFive 0).event ≠ 30 := by
  refine ⟨rfl, rfl, ?_⟩
  decide

/-- C2 (amended): Scenario B on capacity 5 — `free_head` is 0 after init, 1
after one push, 2 after two pushes, 0 after `delete_slot 0`, 1 after
`delete_slot 1`; the next two pushes then reuse the freed slots in LIFO
order, placing their payloads into slot 1 first and slot 0 second. -/
theorem C2_scenario_B :
    (dllInit 5).header.free_head = 0 ∧
    (dllRun (dllInit 5) (sB.take 1)).map (fun q => q.header.free_head) = some 1 ∧
    (dllRun (dllInit 5) (sB.take 2)).map (fun q => q.header.free_head) = some 2 ∧
    (dllRun (dllInit 5) (sB.take 3)).map (fun q => q.header.free_head) = some 0 ∧
    (dllRun (dllInit 5) (sB.take 4)).map (fun q => q.header.free_head) = some 1 ∧
    (dllRun (dllInit 5) (sB.take 5)).map (fun q => (nodeAt q 1).event) = some 30 ∧
    (dllRun (dllInit 5) sB).map (fun q => ((nodeAt q 0).event, (nodeAt q 1).event)) =
      some (40, 30) :=
  ⟨rfl, rfl, rfl, rfl, rfl, rfl, rfl⟩

/-- C5 (amended): `delete_slot` returns the `InvalidSlot` error, leaving the
state unchanged, exactly when the queue is empty or the slot is in range and
already free; calling it with an out-of-range slot on a NON-empty queue does
not produce the typed error but traps on the slot read (the empty check
short-circuits first, so an empty queue still reports `InvalidSlot` even for
an out-of-range slot). -/
theorem C5_delete_slot_errors (q : DLLEventQueue) (slot : Nat) :
    (q.delete_slot slot = some (Except.error (), q) ↔
      (q.header.count = 0 ∨ ∃ n, q.nodes[slot]? = some n ∧ n.prev = NULL)) ∧
    (q.header.count ≠ 0 → q.nodes.length ≤ slot → q.delete_slot slot = none) := by
  by_cases h0 : q.header.count = 0
  · constructor
    · constructor
      · intro _
        exact Or.inl h0
      · intro _
        unfold DLLEventQueue.delete_slot
        rw [if_pos h0]
    · intro hc _
      exact absurd h0 hc
  · cases hg : q.nodes[slot]? with
    | none =>
      constructor
      · constructor
        · intro hEq
          exfalso
          revert hEq
          unfold DLLEventQueue.delete_slot
          simp [h0, hg]
        · rintro (hc | ⟨n, hg', _⟩)
          · exact absurd hc h0
          · exact absurd hg' (by simp)
      · intro _ _
        unfold DLLEventQueue.delete_slot
        simp [h0, hg]
    | some n =>
      by_cases hf : n.is_free
      · constructor
        · constructor
          · intro _
            refine Or.inr ⟨n, rfl, ?_⟩
            simpa [Node.is_free] using hf
          · intro _
            unfold DLLEventQueue.delete_slot
            simp [h0, hg, hf]
        · intro _ hlen
          rw [List.getElem?_eq_none hlen] at hg
          exact absurd hg (by simp)
      · constructor
        · constructor
          · intro hEq
            rcases delete_slot_not_error q slot n h0 hg (by simpa using hf) with h | ⟨e, q1, h⟩
            · rw [h] at hEq
              exact absurd hEq (by simp)
            · rw [h] at hEq
              simp at hEq
          · rintro (hc | ⟨n', hg', hp⟩)
            · exact absurd hc h0
            · injection hg' with hn
              subst hn
              exact absurd (by simpa [Node.is_free] using hp) hf
        · intro _ hlen
          rw [List.getElem?_eq_none hlen] at hg
          exact absurd hg (by simp)

/-- C5 counterexample: `dllOne1` is non-empty and slot 5 is out of range;
`delete_slot` there traps (`none`) instead of returning the `InvalidSlot`
error, refuting "returns InvalidSlot ... when the slot index is out of
range". -/
theorem C5_counterexample :
    dllOne1.header.count ≠ 0 ∧ dllOne1.nodes.length ≤ 5 ∧
    DLLEventQueue.delete_slot dllOne1 5 = none ∧
    DLLEventQueue.delete_slot dllOne1 5 ≠ some (Except.error (), dllOne1) := by
  refine ⟨by decide, by decide, rfl, ?_⟩
  intro h
  rw [show DLLEventQueue.delete_slot dllOne1 5 = none from rfl] at h
  exact Option.noConfusion h

/-- C5 witness: the amended theorem applied at `dllOne1` with slot 5 (trap
case) and slot 0 after freeing it is impossible here, so the error case is
witnessed on the empty queue `dllInit 1` instead. -/
theorem C5_witness :
    DLLEventQueue.delete_slot dllOne1 5 = none ∧
    DLLEventQueue.delete_slot (dllInit 1) 0 = some (Except.error (), dllInit 1) :=
  ⟨(C5_delete_slot_errors dllOne1 5).2 (by decide) (by decide),
   ((C5_delete_slot_errors (dllInit 1) 0).1).mpr (Or.inl rfl)⟩

/-- C8: `revert_pushes` fails with the typed `Underflow` error and changes
nothing when `desired_len > count`; otherwise it sets `count` to
`desired_len`, rewinds `seq_num` by exactly `count - desired_len`, and
changes nothing else. The success case is stated for states whose `count`
fits in a u32 and does not exceed `seq_num`, which holds in every reachable
state. -/
theorem C8_revert_pushes (q : EventQueue) (d : Nat) :
    (q.header.count < d → q.revert_pushes d = (Except.error (), q)) ∧
    (d ≤ q.header.count → q.header.count < 4294967296 → q.header.count ≤ q.header.seq_num →
      (q.revert_pushes d).1 = Except.ok () ∧
      (q.revert_pushes d).2.header.count = d ∧
      (q.revert_pushes d).2.header.seq_num + (q.header.count - d) = q.header.seq_num ∧
      (q.revert_pushes d).2.header.head = q.header.head ∧
      (q.revert_pushes d).2.buf = q.buf) := by
  constructor
  · intro h
    unfold EventQueue.revert_pushes
    rw [if_neg (by omega)]
  · intro h1 h2 h3
    unfold EventQueue.revert_pushes
    rw [if_pos h1]
    refine ⟨rfl, ?_, ?_, rfl, rfl⟩
    · exact Nat.mod_eq_of_lt (by omega)
    · exact Nat.sub_add_cancel (le_trans (Nat.sub_le _ _) h3)

/-- C8 witness: both branches of the theorem at a concrete state with
`head = 1`, `count = 2`, `seq_num = 5`. -/
theorem C8_witness :
    EventQueue.revert_pushes ⟨⟨1, 2, 5⟩, [8, 9, 10]⟩ 3 = (Except.error (), ⟨⟨1, 2, 5⟩, [8, 9, 10]⟩) ∧
    (EventQueue.revert_pushes ⟨⟨1, 2, 5⟩, [8, 9, 10]⟩ 1).2.header.count = 1 ∧
    (EventQueue.revert_pushes ⟨⟨1, 2, 5⟩, [8, 9, 10]⟩ 1).2.header.seq_num + 1 = 5 :=
  ⟨(C8_revert_pushes ⟨⟨1, 2, 5⟩, [8, 9, 10]⟩ 3).1 (by decide),
   ((C8_revert_pushes ⟨⟨1, 2, 5⟩, [8, 9, 10]⟩ 1).2 (by decide) (by decide) (by decide)).2.1,
   ((C8_revert_pushes ⟨⟨1, 2, 5⟩, [8, 9, 10]⟩ 1).2 (by decide) (by decide) (by decide)).2.2.1⟩

/-- C9: `peek_front` agrees with `pop_front` — it returns the source's
`None` exactly when the queue is empty, and otherwise `Some` of exactly the
value `pop_front` would return from the same state (both trap together on a
corrupt head index); `peek_front` borrows the queue immutably and so leaves
the state unchanged by construction. -/
theorem C9_peek_pop_agree (q : EventQueue) :
    q.peek_front = q.pop_front.map (fun r => r.1.toOption) ∧
    (q.peek_front = some none ↔ q.header.count = 0) := by
  unfold EventQueue.peek_front EventQueue.pop_front
  by_cases h0 : q.header.count = 0
  · simp [h0, Except.toOption]
  · cases hg : q.buf[q.header.head]? with
    | none => simp [h0, hg]
    | some v => simp [h0, hg, Except.toOption]

/-! Ring backend: abstraction lemmas and the FIFO law. -/

theorem ringAbs_nil (q : EventQueue) (h : q.header.count = 0) : ringAbs q = [] := by
  simp [ringAbs, h]

theorem ring_push_eq (q : EventQueue) (v : Nat) (hInv : RingInv q)
    (hnf : q.header.count ≠ q.buf.length) :
    q.push_back v = (Except.ok (), ringPushState q v) := by
  unfold EventQueue.push_back
  rw [if_neg hnf]
  have h1 : (q.header.count + 1) % 4294967296 = q.header.count + 1 :=
    Nat.mod_eq_of_lt (by have := hInv.count_le; have := hInv.len_lt; omega)
  simp [ringPushState, h1]

theorem ring_push_inv (q : EventQueue) (v : Nat) (hInv : RingInv q)
    (hnf : q.header.count ≠ q.buf.length) :
    RingInv (ringPushState q v) ∧ ringAbs (ringPushState q v) = ringAbs q ++ [v] := by
  have hcl : q.header.count < q.buf.length := lt_of_le_of_ne hInv.count_le hnf
  have hlen0 : 0 < q.buf.length := by omega
  constructor
  · refine ⟨?_, ?_, ?_⟩
    · simpa [ringPushState] using hInv.head_lt
    · simp only [ringPushState, List.length_set]
      omega
    · simpa [ringPushState] using hInv.len_lt
  · unfold ringAbs ringPushState
    simp only [List.length_set]
    rw [List.range_succ, List.map_append]
    congr 1
    · apply List.map_congr_left
      intro i hi
      have hi' : i < q.header.count := List.mem_range.mp hi
      apply getD_set_ne
      intro hEq
      exact add_mod_window_inj hi' hcl hEq.symm
    · simp only [List.map_cons, List.map_nil]
      congr 1
      exact getD_set_self _ _ _ _ (Nat.mod_lt _ hlen0)

theorem ring_pop_eq (q : EventQueue) (hInv : RingInv q) (hne : q.header.count ≠ 0) :
    q.pop_front = some (Except.ok (q.buf.getD q.header.head 0), ringPopState q) := by
  unfold EventQueue.pop_front
  rw [if_neg hne]
  have hh : q.buf[q.header.head]? = some (q.buf.getD q.header.head 0) := by
    rw [List.getD_eq_getElem _ _ hInv.head_lt]
    exact List.getElem?_eq_getElem hInv.head_lt
  rw [hh]
  have hlen0 : 0 < q.buf.length := by have := hInv.head_lt; omega
  have h1 : (q.header.count - 1) % 4294967296 = q.header.count - 1 :=
    Nat.mod_eq_of_lt (by have := hInv.count_le; have := hInv.len_lt; omega)
  have h2 : ((q.header.head + 1) % q.buf.length) % 4294967296 =
      (q.header.head + 1) % q.buf.length := by
    have h3 : (q.header.head + 1) % q.buf.length < q.buf.length := Nat.mod_lt _ hlen0
    exact Nat.mod_eq_of_lt (by have := hInv.len_lt; omega)
  simp [ringPopState, h1, h2]

theorem ring_pop_inv (q : EventQueue) (hInv : RingInv q) (hne : q.header.count ≠ 0) :
    RingInv (ringPopState q) ∧
    ringAbs q = q.buf.getD q.header.head 0 :: ringAbs (ringPopState q) := by
  have hlen0 : 0 < q.buf.length := by have := hInv.count_le; omega
  constructor
  · refine ⟨?_, ?_, ?_⟩
    · simp only [ringPopState]
      exact Nat.mod_lt _ hlen0
    · simp only [ringPopState]
      have := hInv.count_le
      omega
    · simpa [ringPopState] using hInv.len_lt
  · unfold ringAbs ringPopState
    obtain ⟨c, hc⟩ : ∃ c, q.header.count = c + 1 := ⟨q.header.count - 1, by omega⟩
    rw [hc]
    simp only [Nat.add_sub_cancel]
    rw [List.range_succ_eq_map, List.map_cons]
    congr 1
    · rw [Nat.add_zero, Nat.mod_eq_of_lt hInv.head_lt]
    · rw [List.map_map]
      apply List.map_congr_left
      intro i hi
      simp only [Function.comp_apply]
      rw [Nat.mod_add_mod]
      have h4 : q.header.head + 1 + i = q.header.head + Nat.succ i := by omega
      rw [h4]

theorem ringInit_inv (len : Nat) (h0 : 0 < len) (h1 : len < 4294967296) :
    RingInv (ringInit len) := by
  refine ⟨?_, ?_, ?_⟩ <;> simp [ringInit, h0, h1]

theorem ringRun_spec (ops : List RingOp) : ∀ (q : EventQueue), RingInv q →
    ∀ popped qf, ringRun q ops = some (popped, qf) →
      popped ++ ringAbs qf = ringAbs q ++ ringPushedValues ops ∧ RingInv qf := by
  induction ops with
  | nil =>
    intro q hInv popped qf h
    simp only [ringRun, Option.some.injEq, Prod.mk.injEq] at h
    obtain ⟨h1, h2⟩ := h
    subst h1
    subst h2
    exact ⟨by simp [ringPushedValues], hInv⟩
  | cons op ops ih =>
    cases op with
    | push v =>
      intro q hInv popped qf h
      by_cases hfull : q.header.count = q.buf.length
      · have hp : q.push_back v = (Except.error v, q) := by
          unfold EventQueue.push_back
          rw [if_pos hfull]
        simp only [ringRun, hp] at h
        exact Option.noConfusion h
      · simp only [ringRun, ring_push_eq q v hInv hfull] at h
        obtain ⟨hInv', habs⟩ := ring_push_inv q v hInv hfull
        obtain ⟨ih1, ih2⟩ := ih (ringPushState q v) hInv' popped qf h
        refine ⟨?_, ih2⟩
        rw [ih1, habs]
        simp [ringPushedValues]
    | pop =>
      intro q hInv popped qf h
      by_cases hne : q.header.count = 0
      · have hp : q.pop_front = some (Except.error (), q) := by
          unfold EventQueue.pop_front
          rw [if_pos hne]
        simp only [ringRun, hp] at h
        exact Option.noConfusion h
      · simp only [ringRun, ring_pop_eq q hInv hne] at h
        obtain ⟨hInv', habs⟩ := ring_pop_inv q hInv hne
        cases hr : ringRun (ringPopState q) ops with
        | none =>
          rw [hr] at h
          simp at h
        | some p =>
          obtain ⟨vs, qf2⟩ := p
          rw [hr] at h
          simp only [Option.some.injEq, Prod.mk.injEq] at h
          obtain ⟨h1, h2⟩ := h
          subst h2
          obtain ⟨ih1, ih2⟩ := ih (ringPopState q) hInv' vs qf2 hr
          refine ⟨?_, ih2⟩
          rw [← h1, habs]
          simp only [ringPushedValues, List.cons_append]
          rw [ih1]

/-- C4: the ring FIFO law. For any call sequence of pushes and pops from
the zeroed start state in which no push hits a full queue and no pop hits an
empty one (a successful `ringRun` certifies this), the values returned by
`pop_front` are exactly the first values passed to `push_back`, in order:
popped followed by the residual queue content equals the pushed sequence,
so the popped sequence is its prefix, and the two sequences are equal as
soon as the final queue has been drained. -/
theorem C4_ring_fifo (len : Nat) (ops : List RingOp) (popped : List Nat) (qf : EventQueue)
    (h0 : 0 < len) (h1 : len < 4294967296)
    (h : ringRun (ringInit len) ops = some (popped, qf)) :
    popped ++ ringAbs qf = ringPushedValues ops ∧
    popped = (ringPushedValues ops).take popped.length ∧
    (qf.header.count = 0 → popped = ringPushedValues ops) := by
  obtain ⟨hmain, hInvf⟩ := ringRun_spec ops (ringInit len) (ringInit_inv len h0 h1) popped qf h
  rw [ringAbs_nil (ringInit len) rfl, List.nil_append] at hmain
  refine ⟨hmain, ?_, ?_⟩
  · rw [← hmain, List.take_left]
  · intro hcf
    rw [← hmain, ringAbs_nil qf hcf, List.append_nil]

/-- C4 witness: capacity 2, pushes of 1 and 2 followed by two pops return
exactly the pushed values in order and drain the queue. -/
theorem C4_witness :
    ([1, 2] : List Nat) ++ ringAbs ⟨⟨0, 0, 2⟩, [1, 2]⟩ =
      ringPushedValues [RingOp.push 1, RingOp.push 2, RingOp.pop, RingOp.pop] ∧
    ([1, 2] : List Nat) =
      (ringPushedValues [RingOp.push 1, RingOp.push 2, RingOp.pop, RingOp.pop]).take 2 ∧
    ((⟨⟨0, 0, 2⟩, [1, 2]⟩ : EventQueue).header.count = 0 →
      ([1, 2] : List Nat) =
        ringPushedValues [RingOp.push 1, RingOp.push 2, RingOp.pop, RingOp.pop]) :=
  C4_ring_fifo 2 [RingOp.push 1, RingOp.push 2, RingOp.pop, RingOp.pop] [1, 2]
    ⟨⟨0, 0, 2⟩, [1, 2]⟩ (by decide) (by decide) rfl

/-! Linked backend: symbolic evaluation of the operations on in-range
states. -/

theorem getElem?_getD {α : Type} (l : List α) (s : Nat) (d : α) (h : s < l.length) :
    l[s]? = some (l.getD s d) := by
  rw [List.getElem?_eq_getElem h, List.getD_eq_getElem _ _ h]

theorem setNode?_eq (ns : List Node) (i : Nat) (f : Node → Node) (h : i < ns.length) :
    setNode? ns i f = some (setN ns i f) := by
  simp only [setNode?, setN, getElem?_getD ns i d0 h]

theorem length_setN (ns : List Node) (i : Nat) (f : Node → Node) :
    (setN ns i f).length = ns.length := by
  simp [setN]

theorem getD_setN_ne (ns : List Node) (i j : Nat) (f : Node → Node) (d : Node) (h : j ≠ i) :
    (setN ns i f).getD j d = ns.getD j d := by
  unfold setN
  exact getD_set_ne _ _ _ _ _ h.symm

theorem getD_setN_self (ns : List Node) (i : Nat) (f : Node → Node) (h : i < ns.length) :
    (setN ns i f).getD i d0 = f (ns.getD i d0) := by
  unfold setN
  exact getD_set_self _ _ _ _ h

/-- Evaluation of `push_back` on an empty, not-full queue with the consumed
slot in range: the slot becomes a self-linked singleton and the new head. -/
theorem push_back_empty_eval (q : DLLEventQueue) (v : Nat)
    (hnf : q.header.count ≠ q.nodes.length) (he : q.header.count = 0)
    (hfh : q.header.free_head < q.nodes.length) :
    q.push_back v = some
      { header := { free_head := (nodeAt q q.header.free_head).next % 65536,
                    used_head := q.header.free_head % 65536,
                    count := q.header.count + 1,
                    seq_num := q.header.seq_num + 1 },
        nodes := setN q.nodes q.header.free_head
          (fun n => { n with event := v, next := q.header.free_head % 65536,
                             prev := q.header.free_head % 65536 }) } := by
  have h1 : q.nodes[q.header.free_head]? = some (nodeAt q q.header.free_head) :=
    getElem?_getD _ _ _ hfh
  have h2 : setNode? q.nodes q.header.free_head
      (fun n => { n with event := v, next := q.header.free_head % 65536,
                         prev := q.header.free_head % 65536 }) =
      some (setN q.nodes q.header.free_head
        (fun n => { n with event := v, next := q.header.free_head % 65536,
                           prev := q.header.free_head % 65536 })) :=
    setNode?_eq _ _ _ hfh
  simp only [DLLEventQueue.push_back, if_neg hnf, if_pos he, h1, h2]

/-- Evaluation of `push_back` on a non-empty, not-full queue whose consumed
slot, head and tail indices are in range: the slot is linked in as the new
tail and `used_head` does not change. -/
theorem push_back_eval (q : DLLEventQueue) (v : Nat)
    (hnf : q.header.count ≠ q.nodes.length) (hne : q.header.count ≠ 0)
    (hfh : q.header.free_head < q.nodes.length)
    (huh : q.header.used_head < q.nodes.length)
    (hpv : (nodeAt q q.header.used_head).prev < q.nodes.length) :
    q.push_back v = some
      { header := { free_head := ((pushNodes2 q).getD q.header.free_head d0).next % 65536,
                    used_head := q.header.used_head,
                    count := q.header.count + 1,
                    seq_num := q.header.seq_num + 1 },
        nodes := pushNodes3 q v } := by
  have h1 : q.nodes[q.header.used_head]? = some (nodeAt q q.header.used_head) :=
    getElem?_getD _ _ _ huh
  have h2 : setNode? q.nodes ((nodeAt q q.header.used_head).prev)
      (fun n => { n with next := q.header.free_head % 65536 }) =
      some (setN q.nodes ((nodeAt q q.header.used_head).prev)
        (fun n => { n with next := q.header.free_head % 65536 })) :=
    setNode?_eq _ _ _ hpv
  have h3 : setNode? (setN q.nodes ((nodeAt q q.header.used_head).prev)
      (fun n => { n with next := q.header.free_head % 65536 })) q.header.used_head
      (fun n => { n with prev := q.header.free_head % 65536 }) =
      some (pushNodes2 q) :=
    setNode?_eq _ _ _ (by rw [length_setN]; exact huh)
  have h4 : (pushNodes2 q)[q.header.free_head]? =
      some ((pushNodes2 q).getD q.header.free_head d0) :=
    getElem?_getD _ _ _ (by simp only [pushNodes2, length_setN]; exact hfh)
  have h5 : setNode? (pushNodes2 q) q.header.free_head
      (fun n => { n with event := v, next := q.header.used_head % 65536,
                         prev := (nodeAt q q.header.used_head).prev % 65536 }) =
      some (pushNodes3 q v) :=
    setNode?_eq _ _ _ (by simp only [pushNodes2, length_setN]; exact hfh)
  simp only [DLLEventQueue.push_back, if_neg hnf, if_neg hne, h1, h2, h3, h4, h5, pushNodes3]

/-- Evaluation of `delete_slot` at a live in-range slot whose neighbour
indices are in range. -/
theorem delete_slot_eval (q : DLLEventQueue) (s : Nat)
    (hne : q.header.count ≠ 0) (hs : s < q.nodes.length)
    (hfree : (nodeAt q s).is_free = false)
    (hp : (nodeAt q s).prev < q.nodes.length)
    (hn : (nodeAt q s).next < q.nodes.length) :
    q.delete_slot s = some (Except.ok ((delNodes3 q s).getD s d0).event,
      { header := delHeader q s, nodes := delNodes3 q s }) := by
  have h1 : q.nodes[s]? = some (nodeAt q s) := getElem?_getD _ _ _ hs
  have h2 : setNode? q.nodes ((nodeAt q s).prev)
      (fun n => { n with next := (nodeAt q s).next % 65536 }) =
      some (setN q.nodes ((nodeAt q s).prev)
        (fun n => { n with next := (nodeAt q s).next % 65536 })) :=
    setNode?_eq _ _ _ hp
  have h3 : setNode? (setN q.nodes ((nodeAt q s).prev)
      (fun n => { n with next := (nodeAt q s).next % 65536 })) ((nodeAt q s).next)
      (fun n => { n with prev := (nodeAt q s).prev % 65536 }) = some (delNodes2 q s) :=
    setNode?_eq _ _ _ (by rw [length_setN]; exact hn)
  have h4 : setNode? (delNodes2 q s) s
      (fun n => { n with next := q.header.free_head % 65536, prev := NULL }) =
      some (delNodes3 q s) :=
    setNode?_eq _ _ _ (by simp only [delNodes2, length_setN]; exact hs)
  have h5 : (delNodes3 q s)[s]? = some ((delNodes3 q s).getD s d0) :=
    getElem?_getD _ _ _ (by simp only [delNodes3, delNodes2, length_setN]; exact hs)
  simp only [DLLEventQueue.delete_slot, if_neg hne, h1]
  rw [if_neg (by simp [hfree])]
  simp only [h2, h3, h4, h5, delHeader]

/-- C10: pushing into a non-empty, not-full queue (with the three involved
indices in range, as in every reachable state) leaves `used_head` unchanged
and does not touch any slot other than the consumed free slot
(`free_head`), the old head (`used_head`) and the old tail (the head's
`prev`). -/
theorem C10_push_frame (q : DLLEventQueue) (v : Nat)
    (hne : q.header.count ≠ 0) (hnf : q.header.count ≠ q.nodes.length)
    (hfh : q.header.free_head < q.nodes.length)
    (huh : q.header.used_head < q.nodes.length)
    (hpv : (nodeAt q q.header.used_head).prev < q.nodes.length) :
    (q.push_back v).isSome = true ∧
    ∀ q', q.push_back v = some q' →
      q'.header.used_head = q.header.used_head ∧
      ∀ i, i ≠ q.header.free_head → i ≠ q.header.used_head →
        i ≠ (nodeAt q q.header.used_head).prev → nodeAt q' i = nodeAt q i := by
  rw [push_back_eval q v hnf hne hfh huh hpv]
  refine ⟨rfl, ?_⟩
  intro q' hq'
  injection hq' with hq'
  subst hq'
  refine ⟨rfl, ?_⟩
  intro i h1 h2 h3
  show (pushNodes3 q v).getD i d0 = q.nodes.getD i d0
  unfold pushNodes3 pushNodes2
  rw [getD_setN_ne _ _ _ _ _ h1, getD_setN_ne _ _ _ _ _ h2, getD_setN_ne _ _ _ _ _ h3]

/-- C10 witness: pushing 9 into the two-element capacity-4 queue keeps
`used_head` and leaves the untouched slot 3 intact. -/
theorem C10_witness :
    DLLEventQueue.push_back c10Before 9 = some c10After ∧
    c10After.header.used_head = c10Before.header.used_head ∧
    nodeAt c10After 3 = nodeAt c10Before 3 := by
  have h := C10_push_frame c10Before 9 (by decide) (by decide) (by decide) (by decide) (by decide)
  have heq : DLLEventQueue.push_back c10Before 9 = some c10After := rfl
  exact ⟨heq, (h.2 c10After heq).1, (h.2 c10After heq).2 3 (by decide) (by decide) (by decide)⟩

/-! Generic list helpers for the chain proofs. -/

theorem getD_mem {α : Type} (l : List α) (i : Nat) (d : α) (h : i < l.length) :
    l.getD i d ∈ l := by
  rw [List.getD_eq_getElem _ _ h]
  exact List.getElem_mem h

theorem headD_eq_getD {α : Type} (l : List α) (d d2 : α) (h : l ≠ []) :
    l.headD d = l.getD 0 d2 := by
  cases l with
  | nil => exact absurd rfl h
  | cons a t => rfl

theorem getD_eraseIdx {α : Type} (l : List α) (k i : Nat) (d : α) (hk : k < l.length) :
    (l.eraseIdx k).getD i d = if i < k then l.getD i d else l.getD (i + 1) d := by
  rw [List.eraseIdx_eq_take_drop_succ]
  have hlt : (List.take k l).length = k := by rw [List.length_take]; omega
  have hlt1 : (List.take (k + 1) l).length = k + 1 := by rw [List.length_take]; omega
  by_cases hik : i < k
  · rw [if_pos hik, List.getD_append _ _ _ _ (by omega)]
    conv_rhs => rw [← List.take_append_drop k l]
    rw [List.getD_append _ _ _ _ (by omega)]
  · rw [if_neg hik, List.getD_append_right _ _ _ _ (by omega), hlt]
    conv_rhs => rw [← List.take_append_drop (k + 1) l]
    rw [List.getD_append_right _ _ _ _ (by omega), hlt1]
    congr 1
    omega

theorem map_eraseIdx_comm {α β : Type} (f : α → β) : ∀ (l : List α) (k : Nat),
    (l.eraseIdx k).map f = (l.map f).eraseIdx k := by
  intro l
  induction l with
  | nil => intro k; cases k <;> rfl
  | cons a t ih =>
    intro k
    cases k with
    | zero => rfl
    | succ k =>
      simp only [List.eraseIdx_cons_succ, List.map_cons, ih k]

theorem nodup_getD_inj {α : Type} (l : List α) (d : α) (hnd : l.Nodup) (i j : Nat)
    (hi : i < l.length) (hj : j < l.length) (h : l.getD i d = l.getD j d) : i = j := by
  rw [List.getD_eq_getElem _ _ hi, List.getD_eq_getElem _ _ hj] at h
  exact (List.Nodup.getElem_inj_iff hnd).mp h

/-! Consequences of the linked invariant. -/

theorem DLLInv.nodup_all {q : DLLEventQueue} {used : List (Nat × Nat)} {free : List Nat}
    (h : DLLInv q used free) : (used.map Prod.fst ++ free).Nodup :=
  h.perm.nodup_iff.mpr (List.nodup_range _)

theorem DLLInv.nodup_used {q : DLLEventQueue} {used : List (Nat × Nat)} {free : List Nat}
    (h : DLLInv q used free) : (used.map Prod.fst).Nodup :=
  (List.nodup_append.mp h.nodup_all).1

theorem DLLInv.nodup_free {q : DLLEventQueue} {used : List (Nat × Nat)} {free : List Nat}
    (h : DLLInv q used free) : free.Nodup :=
  (List.nodup_append.mp h.nodup_all).2.1

theorem DLLInv.disj {q : DLLEventQueue} {used : List (Nat × Nat)} {free : List Nat}
    (h : DLLInv q used free) : (used.map Prod.fst).Disjoint free :=
  (List.nodup_append.mp h.nodup_all).2.2

theorem DLLInv.mem_lt {q : DLLEventQueue} {used : List (Nat × Nat)} {free : List Nat}
    (h : DLLInv q used free) (s : Nat) (hs : s ∈ used.map Prod.fst ++ free) :
    s < q.nodes.length :=
  List.mem_range.mp (h.perm.subset hs)

theorem DLLInv.used_lt {q : DLLEventQueue} {used : List (Nat × Nat)} {free : List Nat}
    (h : DLLInv q used free) (s : Nat) (hs : s ∈ used.map Prod.fst) : s < q.nodes.length :=
  h.mem_lt s (List.mem_append_left _ hs)

theorem DLLInv.free_lt {q : DLLEventQueue} {used : List (Nat × Nat)} {free : List Nat}
    (h : DLLInv q used free) (s : Nat) (hs : s ∈ free) : s < q.nodes.length :=
  h.mem_lt s (List.mem_append_right _ hs)

theorem DLLInv.length_sum {q : DLLEventQueue} {used : List (Nat × Nat)} {free : List Nat}
    (h : DLLInv q used free) : used.length + free.length = q.nodes.length := by
  have h1 := h.perm.length_eq
  simpa using h1

/-! Rotation invariance of the cyclic chain predicates. -/

theorem getD_rotate_one {α : Type} (l : List α) (i : Nat) (d : α) (hi : i < l.length) :
    (l.rotate 1).getD i d = l.getD ((i + 1) % l.length) d := by
  cases l with
  | nil => simp
  | cons a t =>
    rw [List.rotate_cons_succ, List.rotate_zero]
    by_cases hit : i < t.length
    · rw [List.getD_append _ _ _ _ hit]
      have hmod : (i + 1) % (a :: t).length = i + 1 :=
        Nat.mod_eq_of_lt (by simp only [List.length_cons]; omega)
      rw [hmod, List.getD_cons_succ]
    · have hieq : i = t.length := by
        simp only [List.length_cons] at hi
        omega
      subst hieq
      rw [List.getD_append_right _ _ _ _ (le_refl _), Nat.sub_self]
      have hmod : (t.length + 1) % (a :: t).length = 0 := by
        simp only [List.length_cons]
        exact Nat.mod_self _
      rw [hmod, List.getD_cons_zero, List.getD_cons_zero]

theorem cycNext_rotate_one (q : DLLEventQueue) (l : List Nat) (h : CycNext q l) :
    CycNext q (l.rotate 1) := by
  intro i hi
  rw [List.length_rotate] at hi
  have hn : 0 < l.length := by omega
  rw [List.length_rotate, getD_rotate_one _ _ _ hi,
      getD_rotate_one _ _ _ (Nat.mod_lt _ hn)]
  rw [h ((i + 1) % l.length) (Nat.mod_lt _ hn), Nat.mod_add_mod]

theorem cycPrev_rotate_one (q : DLLEventQueue) (l : List Nat) (h : CycPrev q l) :
    CycPrev q (l.rotate 1) := by
  intro i hi
  rw [List.length_rotate] at hi
  have hn : 0 < l.length := by omega
  rw [List.length_rotate, getD_rotate_one _ _ _ hi,
      getD_rotate_one _ _ _ (Nat.mod_lt _ hn)]
  have h2 := h ((i + 1) % l.length) (Nat.mod_lt _ hn)
  rw [Nat.mod_add_mod] at h2
  rw [Nat.mod_add_mod, h2]

theorem cycNext_rotate (q : DLLEventQueue) (l : List Nat) (h : CycNext q l) (m : Nat) :
    CycNext q (l.rotate m) := by
  induction m with
  | zero => simpa using h
  | succ m ih =>
    have h2 := cycNext_rotate_one q (l.rotate m) ih
    rwa [List.rotate_rotate] at h2

theorem cycPrev_rotate (q : DLLEventQueue) (l : List Nat) (h : CycPrev q l) (m : Nat) :
    CycPrev q (l.rotate m) := by
  induction m with
  | zero => simpa using h
  | succ m ih =>
    have h2 := cycPrev_rotate_one q (l.rotate m) ih
    rwa [List.rotate_rotate] at h2

/-! Field tracking through the write sequences of push and delete. -/

theorem push3_node_slot (q : DLLEventQueue) (v : Nat)
    (hfh : q.header.free_head < q.nodes.length) :
    (pushNodes3 q v).getD q.header.free_head d0 =
      { next := q.header.used_head % 65536,
        prev := (nodeAt q q.header.used_head).prev % 65536, event := v } := by
  unfold pushNodes3
  rw [getD_setN_self _ _ _ (by simp only [pushNodes2, length_setN]; exact hfh)]

theorem push3_next_preserved (q : DLLEventQueue) (v x : Nat)
    (hx1 : x ≠ q.header.free_head) (hx2 : x ≠ (nodeAt q q.header.used_head).prev)
    (huh : q.header.used_head < q.nodes.length) :
    ((pushNodes3 q v).getD x d0).next = (nodeAt q x).next := by
  unfold pushNodes3 pushNodes2
  rw [getD_setN_ne _ _ _ _ _ hx1]
  by_cases hxu : x = q.header.used_head
  · subst hxu
    rw [getD_setN_self _ _ _ (by rw [length_setN]; exact huh)]
    rw [getD_setN_ne _ _ _ _ _ hx2]
    rfl
  · rw [getD_setN_ne _ _ _ _ _ hxu, getD_setN_ne _ _ _ _ _ hx2]
    rfl

theorem push3_prev_preserved (q : DLLEventQueue) (v x : Nat)
    (hx1 : x ≠ q.header.free_head) (hx3 : x ≠ q.header.used_head)
    (hpv : (nodeAt q q.header.used_head).prev < q.nodes.length) :
    ((pushNodes3 q v).getD x d0).prev = (nodeAt q x).prev := by
  unfold pushNodes3 pushNodes2
  rw [getD_setN_ne _ _ _ _ _ hx1, getD_setN_ne _ _ _ _ _ hx3]
  by_cases hxt : x = (nodeAt q q.header.used_head).prev
  · subst hxt
    rw [getD_setN_self _ _ _ hpv]
    rfl
  · rw [getD_setN_ne _ _ _ _ _ hxt]
    rfl

theorem push3_event_preserved (q : DLLEventQueue) (v x : Nat)
    (hx1 : x ≠ q.header.free_head)
    (huh : q.header.used_head < q.nodes.length)
    (hpv : (nodeAt q q.header.used_head).prev < q.nodes.length) :
    ((pushNodes3 q v).getD x d0).event = (nodeAt q x).event := by
  unfold pushNodes3 pushNodes2
  rw [getD_setN_ne _ _ _ _ _ hx1]
  by_cases hxu : x = q.header.used_head
  · subst hxu
    rw [getD_setN_self _ _ _ (by rw [length_setN]; exact huh)]
    by_cases hxt : q.header.used_head = (nodeAt q q.header.used_head).prev
    · rw [← hxt] at hpv ⊢
      rw [getD_setN_self _ _ _ hpv]
      rfl
    · rw [getD_setN_ne _ _ _ _ _ hxt]
      rfl
  · rw [getD_setN_ne _ _ _ _ _ hxu]
    by_cases hxt : x = (nodeAt q q.header.used_head).prev
    · subst hxt
      rw [getD_setN_self _ _ _ hpv]
      rfl
    · rw [getD_setN_ne _ _ _ _ _ hxt]
      rfl

theorem push3_node_preserved (q : DLLEventQueue) (v x : Nat)
    (hx1 : x ≠ q.header.free_head) (hx2 : x ≠ (nodeAt q q.header.used_head).prev)
    (hx3 : x ≠ q.header.used_head) :
    (pushNodes3 q v).getD x d0 = nodeAt q x := by
  unfold pushNodes3 pushNodes2
  rw [getD_setN_ne _ _ _ _ _ hx1, getD_setN_ne _ _ _ _ _ hx3, getD_setN_ne _ _ _ _ _ hx2]
  rfl

theorem push3_next_tail (q : DLLEventQueue) (v : Nat)
    (htl_ne : (nodeAt q q.header.used_head).prev ≠ q.header.free_head)
    (hpv : (nodeAt q q.header.used_head).prev < q.nodes.length) :
    ((pushNodes3 q v).getD ((nodeAt q q.header.used_head).prev) d0).next =
      q.header.free_head % 65536 := by
  unfold pushNodes3 pushNodes2
  rw [getD_setN_ne _ _ _ _ _ htl_ne]
  by_cases hxu : (nodeAt q q.header.used_head).prev = q.header.used_head
  · rw [hxu, getD_setN_self _ _ _ (by rw [length_setN]; rw [hxu] at hpv; exact hpv)]
    rw [← hxu, getD_setN_self _ _ _ hpv]
  · rw [getD_setN_ne _ _ _ _ _ hxu, getD_setN_self _ _ _ hpv]

theorem push3_prev_head (q : DLLEventQueue) (v : Nat)
    (huh_ne : q.header.used_head ≠ q.header.free_head)
    (huh : q.header.used_head < q.nodes.length) :
    ((pushNodes3 q v).getD q.header.used_head d0).prev = q.header.free_head % 65536 := by
  unfold pushNodes3 pushNodes2
  rw [getD_setN_ne _ _ _ _ _ huh_ne, getD_setN_self _ _ _ (by rw [length_setN]; exact huh)]

theorem del2_event (q : DLLEventQueue) (s x : Nat)
    (hps : (nodeAt q s).prev < q.nodes.length) (hns : (nodeAt q s).next < q.nodes.length) :
    ((delNodes2 q s).getD x d0).event = (nodeAt q x).event := by
  unfold delNodes2
  by_cases hxn : x = (nodeAt q s).next
  · subst hxn
    rw [getD_setN_self _ _ _ (by rw [length_setN]; exact hns)]
    by_cases hnp : (nodeAt q s).next = (nodeAt q s).prev
    · rw [hnp, getD_setN_self _ _ _ hps]
      rfl
    · rw [getD_setN_ne _ _ _ _ _ hnp]
      rfl
  · rw [getD_setN_ne _ _ _ _ _ hxn]
    by_cases hxp : x = (nodeAt q s).prev
    · subst hxp
      rw [getD_setN_self _ _ _ hps]
      rfl
    · rw [getD_setN_ne _ _ _ _ _ hxp]
      rfl

theorem del3_node_s (q : DLLEventQueue) (s : Nat)
    (hs : s < q.nodes.length)
    (hps : (nodeAt q s).prev < q.nodes.length) (hns : (nodeAt q s).next < q.nodes.length) :
    (delNodes3 q s).getD s d0 =
      { next := q.header.free_head % 65536, prev := NULL, event := (nodeAt q s).event } := by
  unfold delNodes3
  rw [getD_setN_self _ _ _ (by simp only [delNodes2, length_setN]; exact hs)]
  rw [del2_event q s s hps hns]

theorem del3_event (q : DLLEventQueue) (s x : Nat)
    (hs : s < q.nodes.length)
    (hps : (nodeAt q s).prev < q.nodes.length) (hns : (nodeAt q s).next < q.nodes.length) :
    ((delNodes3 q s).getD x d0).event = (nodeAt q x).event := by
  unfold delNodes3
  by_cases hxs : x = s
  · subst hxs
    rw [getD_setN_self _ _ _ (by simp only [delNodes2, length_setN]; exact hs)]
    exact del2_event _ _ _ hps hns
  · rw [getD_setN_ne _ _ _ _ _ hxs]
    exact del2_event _ _ _ hps hns

theorem del3_next_preserved (q : DLLEventQueue) (s x : Nat)
    (hx1 : x ≠ s) (hx2 : x ≠ (nodeAt q s).prev)
    (hns : (nodeAt q s).next < q.nodes.length) :
    ((delNodes3 q s).getD x d0).next = (nodeAt q x).next := by
  unfold delNodes3 delNodes2
  rw [getD_setN_ne _ _ _ _ _ hx1]
  by_cases hxn : x = (nodeAt q s).next
  · subst hxn
    rw [getD_setN_self _ _ _ (by rw [length_setN]; exact hns)]
    rw [getD_setN_ne _ _ _ _ _ hx2]
    rfl
  · rw [getD_setN_ne _ _ _ _ _ hxn, getD_setN_ne _ _ _ _ _ hx2]
    rfl

theorem del3_prev_preserved (q : DLLEventQueue) (s x : Nat)
    (hx1 : x ≠ s) (hx3 : x ≠ (nodeAt q s).next)
    (hps : (nodeAt q s).prev < q.nodes.length) :
    ((delNodes3 q s).getD x d0).prev = (nodeAt q x).prev := by
  unfold delNodes3 delNodes2
  rw [getD_setN_ne _ _ _ _ _ hx1, getD_setN_ne _ _ _ _ _ hx3]
  by_cases hxp : x = (nodeAt q s).prev
  · subst hxp
    rw [getD_setN_self _ _ _ hps]
    rfl
  · rw [getD_setN_ne _ _ _ _ _ hxp]
    rfl

theorem del3_node_preserved (q : DLLEventQueue) (s x : Nat)
    (hx1 : x ≠ s) (hx2 : x ≠ (nodeAt q s).prev) (hx3 : x ≠ (nodeAt q s).next) :
    (delNodes3 q s).getD x d0 = nodeAt q x := by
  unfold delNodes3 delNodes2
  rw [getD_setN_ne _ _ _ _ _ hx1, getD_setN_ne _ _ _ _ _ hx3, getD_setN_ne _ _ _ _ _ hx2]
  rfl

theorem del3_next_ps (q : DLLEventQueue) (s : Nat)
    (hps_ne : (nodeAt q s).prev ≠ s) (hps : (nodeAt q s).prev < q.nodes.length) :
    ((delNodes3 q s).getD ((nodeAt q s).prev) d0).next = (nodeAt q s).next % 65536 := by
  unfold delNodes3 delNodes2
  rw [getD_setN_ne _ _ _ _ _ hps_ne]
  by_cases hpn : (nodeAt q s).prev = (nodeAt q s).next
  · rw [hpn, getD_setN_self _ _ _ (by rw [length_setN]; rw [← hpn]; exact hps)]
    rw [← hpn, getD_setN_self _ _ _ hps]
  · rw [getD_setN_ne _ _ _ _ _ hpn, getD_setN_self _ _ _ hps]

theorem del3_prev_ns (q : DLLEventQueue) (s : Nat)
    (hns_ne : (nodeAt q s).next ≠ s) (hns : (nodeAt q s).next < q.nodes.length) :
    ((delNodes3 q s).getD ((nodeAt q s).next) d0).prev = (nodeAt q s).prev % 65536 := by
  unfold delNodes3 delNodes2
  rw [getD_setN_ne _ _ _ _ _ hns_ne, getD_setN_self _ _ _ (by rw [length_setN]; exact hns)]

theorem headD_append {α : Type} (l l2 : List α) (d : α) (h : l ≠ []) :
    (l ++ l2).headD d = l.headD d := by
  cases l with
  | nil => exact absurd rfl h
  | cons a t => rfl

theorem getD_zero_headD {α : Type} (l : List α) (d : α) : l.getD 0 d = l.headD d := by
  cases l <;> rfl

/-- Push preservation: on a state satisfying the invariant with a non-empty
free chain, `push_back` succeeds, appends the new (slot, payload) pair to
the journal, consumes the head of the free chain, and bumps `seq_num` and
`count` by one. -/
theorem dll_push_preserve (q : DLLEventQueue) (used : List (Nat × Nat)) (f : Nat)
    (fs : List Nat) (v : Nat) (hInv : DLLInv q used (f :: fs)) :
    ∃ q', q.push_back v = some q' ∧ DLLInv q' (used ++ [(f, v)]) fs ∧
      q'.header.seq_num = q.header.seq_num + 1 ∧
      q'.header.count = q.header.count + 1 ∧
      q'.nodes.length = q.nodes.length := by
  have hfh_eq : q.header.free_head = f := by rw [hInv.fhead]; rfl
  subst hfh_eq
  have hN : q.nodes.length ≤ 65535 := hInv.small
  have hfN : q.header.free_head < q.nodes.length := hInv.free_lt _ (by simp)
  have hfmod : q.header.free_head % 65536 = q.header.free_head :=
    Nat.mod_eq_of_lt (by omega)
  have hsum : used.length + (fs.length + 1) = q.nodes.length := by
    have h1 := hInv.length_sum
    simpa using h1
  have hnotfull : q.header.count ≠ q.nodes.length := by
    rw [hInv.count_eq]
    omega
  have hfnext : (nodeAt q q.header.free_head).next = fs.headD NULL := by
    have h1 := (hInv.fchain 0 (by simp)).1
    simp only [List.getD_cons_zero, List.getD_cons_succ] at h1
    rw [h1, getD_zero_headD]
  have hfnext65 : fs.headD NULL < 65536 := by
    cases fs with
    | nil => decide
    | cons a t =>
      have h1 : a < q.nodes.length := hInv.free_lt a (by simp)
      simp only [List.headD_cons]
      omega
  have hf_notin_fs : q.header.free_head ∉ fs := by
    have h1 := hInv.nodup_free
    rw [List.nodup_cons] at h1
    exact h1.1
  have hdisj := hInv.disj
  by_cases hu : used = []
  · subst hu
    have hcount0 : q.header.count = 0 := hInv.count_eq
    have heval := push_back_empty_eval q v hnotfull hcount0 hfN
    refine ⟨_, heval, ?_, rfl, rfl, by simp only [length_setN]⟩
    refine ⟨?_, ?_, ?_, ?_, ?_, ?_, ?_, ?_, ?_⟩
    · simp only [List.nil_append, List.map_cons, List.map_nil, length_setN]
      simpa using hInv.perm
    · simp only [length_setN]
      exact hN
    · simp [hcount0]
    · simp only [List.nil_append, List.map_cons, List.map_nil, List.headD_cons]
      exact hfmod
    · show (nodeAt q q.header.free_head).next % 65536 = fs.headD NULL
      rw [hfnext, Nat.mod_eq_of_lt hfnext65]
    · intro i hi
      simp only [List.nil_append, List.map_cons, List.map_nil, List.length_cons,
        List.length_nil] at hi
      have hi0 : i = 0 := by omega
      subst hi0
      simp only [List.nil_append, List.map_cons, List.map_nil, List.length_cons,
        List.length_nil, List.getD_cons_zero, nodeAt]
      rw [getD_setN_self _ _ _ hfN]
      exact hfmod
    · intro i hi
      simp only [List.nil_append, List.map_cons, List.map_nil, List.length_cons,
        List.length_nil] at hi
      have hi0 : i = 0 := by omega
      subst hi0
      simp only [List.nil_append, List.map_cons, List.map_nil, List.length_cons,
        List.length_nil, List.getD_cons_zero, nodeAt]
      rw [show ([q.header.free_head].getD ((0 + 1) % (0 + 1)) 0 : Nat) =
        q.header.free_head from rfl]
      rw [getD_setN_self _ _ _ hfN]
      exact hfmod
    · intro j hj
      have hmem : fs.getD j 0 ∈ fs := getD_mem _ _ _ hj
      have hne : fs.getD j 0 ≠ q.header.free_head := by
        intro hEq
        exact hf_notin_fs (hEq ▸ hmem)
      have hold := hInv.fchain (j + 1) (by simp only [List.length_cons]; omega)
      simp only [List.getD_cons_succ] at hold
      simp only [nodeAt]
      rw [getD_setN_ne _ _ _ _ _ hne]
      exact hold
    · intro p hp
      simp only [List.nil_append, List.mem_singleton] at hp
      subst hp
      simp only [nodeAt]
      rw [getD_setN_self _ _ _ hfN]
  · -- non-empty queue
    have hLne : used.map Prod.fst ≠ [] := by
      simpa [List.map_eq_nil_iff] using hu
    have hln : 0 < used.length := by
      cases used with
      | nil => exact absurd rfl hu
      | cons a t => simp
    have hn1 : 0 < (used.map Prod.fst).length := by simpa using hln
    have hne0 : q.header.count ≠ 0 := by
      rw [hInv.count_eq]
      omega
    have uh_eq : q.header.used_head = (used.map Prod.fst).getD 0 0 := by
      rw [hInv.uhead]
      exact headD_eq_getD _ _ _ hLne
    have huhN : q.header.used_head < q.nodes.length := by
      rw [uh_eq]
      exact hInv.used_lt _ (getD_mem _ _ _ hn1)
    have htl_eq : (nodeAt q q.header.used_head).prev =
        (used.map Prod.fst).getD ((used.map Prod.fst).length - 1) 0 := by
      have h1 := hInv.cprev ((used.map Prod.fst).length - 1) (by omega)
      have h2 : ((used.map Prod.fst).length - 1 + 1) % (used.map Prod.fst).length = 0 := by
        have h3 : (used.map Prod.fst).length - 1 + 1 = (used.map Prod.fst).length := by omega
        rw [h3, Nat.mod_self]
      rw [h2] at h1
      rw [uh_eq]
      exact h1
    have htlN : (nodeAt q q.header.used_head).prev < q.nodes.length := by
      rw [htl_eq]
      exact hInv.used_lt _ (getD_mem _ _ _ (by omega))
    have hmem_ne_f : ∀ x, x ∈ used.map Prod.fst → x ≠ q.header.free_head := by
      intro x hx hEq
      exact hdisj hx (by simp [hEq])
    have huh_ne_f : q.header.used_head ≠ q.header.free_head := by
      rw [uh_eq]
      exact hmem_ne_f _ (getD_mem _ _ _ hn1)
    have htl_ne_f : (nodeAt q q.header.used_head).prev ≠ q.header.free_head := by
      rw [htl_eq]
      exact hmem_ne_f _ (getD_mem _ _ _ (by omega))
    have hP2 : (pushNodes2 q).getD q.header.free_head d0 = nodeAt q q.header.free_head := by
      unfold pushNodes2
      rw [getD_setN_ne _ _ _ _ _ huh_ne_f.symm, getD_setN_ne _ _ _ _ _ htl_ne_f.symm]
      rfl
    have heval := push_back_eval q v hnotfull hne0 hfN huhN htlN
    refine ⟨_, heval, ?_, rfl, rfl, by simp only [pushNodes3, pushNodes2, length_setN]⟩
    have hndL := hInv.nodup_used
    have huhmod : q.header.used_head % 65536 = q.header.used_head :=
      Nat.mod_eq_of_lt (by omega)
    have htlmod : (nodeAt q q.header.used_head).prev % 65536 =
        (nodeAt q q.header.used_head).prev := Nat.mod_eq_of_lt (by omega)
    refine ⟨?_, ?_, ?_, ?_, ?_, ?_, ?_, ?_, ?_⟩
    · simp only [List.map_append, List.map_cons, List.map_nil, pushNodes3, pushNodes2,
        length_setN]
      rw [List.append_assoc]
      simpa using hInv.perm
    · simp only [pushNodes3, pushNodes2, length_setN]
      exact hN
    · simp only [List.length_append, List.length_cons, List.length_nil, hInv.count_eq]
    · show q.header.used_head = ((used ++ [(q.header.free_head, v)]).map Prod.fst).headD NULL
      rw [List.map_append, headD_append _ _ _ hLne]
      exact hInv.uhead
    · show ((pushNodes2 q).getD q.header.free_head d0).next % 65536 = fs.headD NULL
      rw [hP2, hfnext, Nat.mod_eq_of_lt hfnext65]
    · -- CycNext of L ++ [free_head]
      intro i hi
      simp only [List.map_append, List.map_cons, List.map_nil, List.length_append,
        List.length_cons, List.length_nil] at hi ⊢
      simp only [nodeAt]
      by_cases hiA : i < (used.map Prod.fst).length - 1
      · rw [List.getD_append _ _ _ _ (by omega)]
        have hx1 : (used.map Prod.fst).getD i 0 ≠ q.header.free_head :=
          hmem_ne_f _ (getD_mem _ _ _ (by omega))
        have hx2 : (used.map Prod.fst).getD i 0 ≠ (nodeAt q q.header.used_head).prev := by
          rw [htl_eq]
          intro hEq
          have := nodup_getD_inj _ _ hndL _ _ (by omega) (by omega) hEq
          omega
        rw [push3_next_preserved q v _ hx1 hx2 huhN]
        have hold := hInv.cnext i (by omega)
        rw [Nat.mod_eq_of_lt (by omega : i + 1 < (used.map Prod.fst).length)] at hold
        rw [hold]
        rw [Nat.mod_eq_of_lt (by omega : i + 1 < (used.map Prod.fst).length + 1)]
        rw [List.getD_append _ _ _ _ (by omega)]
      · by_cases hiB : i = (used.map Prod.fst).length - 1
        · subst hiB
          rw [List.getD_append _ _ _ _ (by omega)]
          rw [← htl_eq, push3_next_tail q v htl_ne_f htlN]
          rw [Nat.mod_eq_of_lt
            (by omega : (used.map Prod.fst).length - 1 + 1 < (used.map Prod.fst).length + 1)]
          have hlen1 : (used.map Prod.fst).length - 1 + 1 = (used.map Prod.fst).length := by
            omega
          rw [hlen1, List.getD_append_right _ _ _ _ (le_refl _), Nat.sub_self,
            List.getD_cons_zero]
          exact hfmod
        · have hiC : i = (used.map Prod.fst).length := by omega
          subst hiC
          rw [List.getD_append_right _ _ _ _ (le_refl _), Nat.sub_self, List.getD_cons_zero]
          rw [push3_node_slot q v hfN]
          show q.header.used_head % 65536 =
            ((used.map Prod.fst) ++ [q.header.free_head]).getD
              (((used.map Prod.fst).length + 1) % ((used.map Prod.fst).length + 1)) 0
          rw [Nat.mod_self, List.getD_append _ _ _ _ (by omega), huhmod]
          exact uh_eq
    · -- CycPrev of L ++ [free_head]
      intro i hi
      simp only [List.map_append, List.map_cons, List.map_nil, List.length_append,
        List.length_cons, List.length_nil] at hi ⊢
      simp only [nodeAt]
      by_cases hiA : i < (used.map Prod.fst).length - 1
      · rw [Nat.mod_eq_of_lt (by omega : i + 1 < (used.map Prod.fst).length + 1)]
        rw [List.getD_append _ _ _ _ (by omega : i + 1 < (used.map Prod.fst).length)]
        have hy1 : (used.map Prod.fst).getD (i + 1) 0 ≠ q.header.free_head :=
          hmem_ne_f _ (getD_mem _ _ _ (by omega))
        have hy3 : (used.map Prod.fst).getD (i + 1) 0 ≠ q.header.used_head := by
          rw [uh_eq]
          intro hEq
          have := nodup_getD_inj _ _ hndL _ _ (by omega) (by omega) hEq
          omega
        rw [push3_prev_preserved q v _ hy1 hy3 htlN]
        have hold := hInv.cprev i (by omega)
        rw [Nat.mod_eq_of_lt (by omega : i + 1 < (used.map Prod.fst).length)] at hold
        rw [hold, List.getD_append _ _ _ _ (by omega)]
      · by_cases hiB : i = (used.map Prod.fst).length - 1
        · subst hiB
          have hlen1 : (used.map Prod.fst).length - 1 + 1 = (used.map Prod.fst).length := by
            omega
          rw [hlen1, Nat.mod_eq_of_lt (by omega), List.getD_append_right _ _ _ _ (le_refl _),
            Nat.sub_self, List.getD_cons_zero]
          rw [push3_node_slot q v hfN]
          show (nodeAt q q.header.used_head).prev % 65536 =
            ((used.map Prod.fst) ++ [q.header.free_head]).getD
              ((used.map Prod.fst).length - 1) 0
          rw [htlmod, htl_eq, List.getD_append _ _ _ _ (by omega)]
        · have hiC : i = (used.map Prod.fst).length := by omega
          subst hiC
          rw [Nat.mod_self, List.getD_append _ _ _ _ (by omega), ← uh_eq,
            push3_prev_head q v huh_ne_f huhN]
          rw [List.getD_append_right _ _ _ _ (le_refl _), Nat.sub_self, List.getD_cons_zero]
          exact hfmod
    · -- free chain fs
      intro j hj
      have hmem : fs.getD j 0 ∈ fs := getD_mem _ _ _ hj
      have hxf : fs.getD j 0 ≠ q.header.free_head := by
        intro hEq
        exact hf_notin_fs (hEq ▸ hmem)
      have hmemfree : fs.getD j 0 ∈ q.header.free_head :: fs :=
        List.mem_cons_of_mem _ hmem
      have hxu : fs.getD j 0 ≠ q.header.used_head := by
        intro hEq
        refine hdisj ?_ hmemfree
        rw [← hEq] at uh_eq
        rw [uh_eq]
        exact getD_mem _ _ _ hn1
      have hxt : fs.getD j 0 ≠ (nodeAt q q.header.used_head).prev := by
        intro hEq
        refine hdisj ?_ hmemfree
        rw [← hEq] at htl_eq
        rw [htl_eq]
        exact getD_mem _ _ _ (by omega)
      have hold := hInv.fchain (j + 1) (by simp only [List.length_cons]; omega)
      simp only [List.getD_cons_succ] at hold
      simp only [nodeAt]
      rw [push3_node_preserved q v _ hxf hxt hxu]
      exact hold
    · -- events
      intro p hp
      rw [List.mem_append] at hp
      cases hp with
      | inl hp =>
        have hxf : p.1 ≠ q.header.free_head :=
          hmem_ne_f _ (List.mem_map_of_mem Prod.fst hp)
        simp only [nodeAt]
        rw [push3_event_preserved q v _ hxf huhN htlN]
        exact hInv.events p hp
      | inr hp =>
        simp only [List.mem_singleton] at hp
        subst hp
        simp only [nodeAt]
        rw [push3_node_slot q v hfN]

theorem getD_map_fst (l : List (Nat × Nat)) (i : Nat) :
    (l.map Prod.fst).getD i 0 = (l.getD i (0, 0)).1 := by
  induction l generalizing i with
  | nil => cases i <;> rfl
  | cons a t ih =>
    cases i with
    | zero => rfl
    | succ i => simpa using ih i

/-- Unlinking the head of a circular chain of at least two slots leaves the
remaining slots circularly chained in both directions. -/
theorem del_chain_head (q : DLLEventQueue) (s : Nat) (rest : List Nat) (h2 : DLLHeader)
    (hcn : CycNext q (s :: rest)) (hcp : CycPrev q (s :: rest))
    (hnd : (s :: rest).Nodup)
    (hlt : ∀ x ∈ s :: rest, x < q.nodes.length)
    (hN : q.nodes.length ≤ 65535)
    (hm : 0 < rest.length) :
    CycNext ⟨h2, delNodes3 q s⟩ rest ∧ CycPrev ⟨h2, delNodes3 q s⟩ rest := by
  have hs_notin : s ∉ rest := (List.nodup_cons.mp hnd).1
  have hnd_rest : rest.Nodup := (List.nodup_cons.mp hnd).2
  have hns_eq : (nodeAt q s).next = rest.getD 0 0 := by
    have h1 := hcn 0 (by simp)
    simp only [List.getD_cons_zero, List.length_cons] at h1
    rw [Nat.mod_eq_of_lt (by omega), List.getD_cons_succ] at h1
    exact h1
  have hps_eq : (nodeAt q s).prev = rest.getD (rest.length - 1) 0 := by
    have h1 := hcp rest.length (by simp)
    simp only [List.length_cons] at h1
    rw [Nat.mod_self, List.getD_cons_zero] at h1
    rw [h1]
    have h4 : rest.length = rest.length - 1 + 1 := by omega
    conv_lhs => rw [h4]
    rw [List.getD_cons_succ]
  have hns_mem : (nodeAt q s).next ∈ rest := by
    rw [hns_eq]
    exact getD_mem _ _ _ hm
  have hps_mem : (nodeAt q s).prev ∈ rest := by
    rw [hps_eq]
    exact getD_mem _ _ _ (by omega)
  have hns_ne : (nodeAt q s).next ≠ s := fun hEq => hs_notin (hEq ▸ hns_mem)
  have hps_ne : (nodeAt q s).prev ≠ s := fun hEq => hs_notin (hEq ▸ hps_mem)
  have hnsN : (nodeAt q s).next < q.nodes.length :=
    hlt _ (List.mem_cons_of_mem _ hns_mem)
  have hpsN : (nodeAt q s).prev < q.nodes.length :=
    hlt _ (List.mem_cons_of_mem _ hps_mem)
  have hnsmod : (nodeAt q s).next % 65536 = (nodeAt q s).next :=
    Nat.mod_eq_of_lt (by omega)
  have hpsmod : (nodeAt q s).prev % 65536 = (nodeAt q s).prev :=
    Nat.mod_eq_of_lt (by omega)
  constructor
  · intro i hi
    simp only [nodeAt]
    by_cases hiA : i < rest.length - 1
    · have hx1 : rest.getD i 0 ≠ s := fun hEq => hs_notin (hEq ▸ getD_mem _ _ _ (by omega))
      have hx2 : rest.getD i 0 ≠ (nodeAt q s).prev := by
        rw [hps_eq]
        intro hEq
        have := nodup_getD_inj _ _ hnd_rest _ _ (by omega) (by omega) hEq
        omega
      rw [del3_next_preserved q s _ hx1 hx2 hnsN]
      have hold := hcn (i + 1) (by simp only [List.length_cons]; omega)
      simp only [List.getD_cons_succ, List.length_cons] at hold
      rw [Nat.mod_eq_of_lt (by omega : i + 1 + 1 < rest.length + 1),
        List.getD_cons_succ] at hold
      rw [hold, Nat.mod_eq_of_lt (by omega : i + 1 < rest.length)]
    · have hiB : i = rest.length - 1 := by omega
      subst hiB
      rw [← hps_eq, del3_next_ps q s hps_ne hpsN, hnsmod, hns_eq]
      have hmod : (rest.length - 1 + 1) % rest.length = 0 := by
        have h3 : rest.length - 1 + 1 = rest.length := by omega
        rw [h3, Nat.mod_self]
      rw [hmod]
  · intro i hi
    simp only [nodeAt]
    by_cases hiA : i < rest.length - 1
    · rw [Nat.mod_eq_of_lt (by omega : i + 1 < rest.length)]
      have hy1 : rest.getD (i + 1) 0 ≠ s :=
        fun hEq => hs_notin (hEq ▸ getD_mem _ _ _ (by omega))
      have hy3 : rest.getD (i + 1) 0 ≠ (nodeAt q s).next := by
        rw [hns_eq]
        intro hEq
        have := nodup_getD_inj _ _ hnd_rest _ _ (by omega) (by omega) hEq
        omega
      rw [del3_prev_preserved q s _ hy1 hy3 hpsN]
      have hold := hcp (i + 1) (by simp only [List.length_cons]; omega)
      simp only [List.length_cons] at hold
      rw [Nat.mod_eq_of_lt (by omega : i + 1 + 1 < rest.length + 1)] at hold
      simp only [List.getD_cons_succ] at hold
      exact hold
    · have hiB : i = rest.length - 1 := by omega
      subst hiB
      have hmod : (rest.length - 1 + 1) % rest.length = 0 := by
        have h3 : rest.length - 1 + 1 = rest.length := by omega
        rw [h3, Nat.mod_self]
      rw [hmod, ← hns_eq, del3_prev_ns q s hns_ne hnsN, hpsmod, hps_eq]

theorem delHeader_fields (q : DLLEventQueue) (s : Nat) :
    (delHeader q s).seq_num = q.header.seq_num ∧
    (delHeader q s).count = q.header.count - 1 ∧
    (delHeader q s).free_head = s % 65536 ∧
    (delHeader q s).used_head =
      (if q.header.count = 1 then NULL
       else if q.header.used_head = s then (nodeAt q s).next % 65536
       else q.header.used_head) := by
  unfold delHeader
  by_cases h1 : q.header.count = 1
  · simp [h1]
  · by_cases h2 : q.header.used_head = s
    · simp [h1, h2]
    · simp [h1, h2]

/-- Delete preservation: deleting the slot stored at position `k` of the
journal succeeds, returns that entry's payload, erases the entry, pushes the
slot onto the free chain, and leaves `seq_num` alone. -/
theorem dll_delete_preserve (q : DLLEventQueue) (used : List (Nat × Nat)) (free : List Nat)
    (k : Nat) (hk : k < used.length) (hInv : DLLInv q used free) :
    ∃ q', q.delete_slot ((used.map Prod.fst).getD k 0) =
        some (Except.ok (used.getD k (0, 0)).2, q') ∧
      DLLInv q' (used.eraseIdx k) (((used.map Prod.fst).getD k 0) :: free) ∧
      q'.header.seq_num = q.header.seq_num ∧
      q'.nodes.length = q.nodes.length ∧
      q'.header.count = q.header.count - 1 := by
  have hkL : k < (used.map Prod.fst).length := by simpa using hk
  have hN := hInv.small
  have hsmem : (used.map Prod.fst).getD k 0 ∈ used.map Prod.fst := getD_mem _ _ _ hkL
  have hsN : (used.map Prod.fst).getD k 0 < q.nodes.length := hInv.used_lt _ hsmem
  have hsmod : (used.map Prod.fst).getD k 0 % 65536 = (used.map Prod.fst).getD k 0 :=
    Nat.mod_eq_of_lt (by omega)
  have hn0 : 0 < (used.map Prod.fst).length := by omega
  have hne0 : q.header.count ≠ 0 := by
    rw [hInv.count_eq]
    omega
  have hns_eq : (nodeAt q ((used.map Prod.fst).getD k 0)).next =
      (used.map Prod.fst).getD ((k + 1) % (used.map Prod.fst).length) 0 :=
    hInv.cnext k hkL
  have hmodk : ((k + (used.map Prod.fst).length - 1) % (used.map Prod.fst).length + 1) %
      (used.map Prod.fst).length = k := by
    by_cases hk0 : k = 0
    · subst hk0
      rw [Nat.zero_add, Nat.mod_eq_of_lt
        (show (used.map Prod.fst).length - 1 < (used.map Prod.fst).length by omega)]
      have h3 : (used.map Prod.fst).length - 1 + 1 = (used.map Prod.fst).length := by omega
      rw [h3, Nat.mod_self]
    · have h1 : k + (used.map Prod.fst).length - 1 = (k - 1) + (used.map Prod.fst).length := by
        omega
      rw [h1, Nat.add_mod_right, Nat.mod_eq_of_lt
        (show k - 1 < (used.map Prod.fst).length by omega)]
      have h3 : k - 1 + 1 = k := by omega
      rw [h3, Nat.mod_eq_of_lt (by omega)]
  have hps_eq : (nodeAt q ((used.map Prod.fst).getD k 0)).prev =
      (used.map Prod.fst).getD
        ((k + (used.map Prod.fst).length - 1) % (used.map Prod.fst).length) 0 := by
    have h1 := hInv.cprev ((k + (used.map Prod.fst).length - 1) % (used.map Prod.fst).length)
      (Nat.mod_lt _ hn0)
    rw [hmodk] at h1
    exact h1
  have hps_mem : (nodeAt q ((used.map Prod.fst).getD k 0)).prev ∈ used.map Prod.fst := by
    rw [hps_eq]
    exact getD_mem _ _ _ (Nat.mod_lt _ hn0)
  have hns_mem : (nodeAt q ((used.map Prod.fst).getD k 0)).next ∈ used.map Prod.fst := by
    rw [hns_eq]
    exact getD_mem _ _ _ (Nat.mod_lt _ hn0)
  have hpsN : (nodeAt q ((used.map Prod.fst).getD k 0)).prev < q.nodes.length :=
    hInv.used_lt _ hps_mem
  have hnsN : (nodeAt q ((used.map Prod.fst).getD k 0)).next < q.nodes.length :=
    hInv.used_lt _ hns_mem
  have hsfree : (nodeAt q ((used.map Prod.fst).getD k 0)).is_free = false := by
    simp only [Node.is_free, beq_eq_false_iff_ne]
    intro hEq
    rw [hEq] at hpsN
    unfold NULL at hpsN
    omega
  have hfree65 : free.headD NULL < 65536 := by
    cases free with
    | nil => decide
    | cons a t =>
      have h1 := hInv.free_lt a (by simp)
      simp only [List.headD_cons]
      omega
  have heval := delete_slot_eval q ((used.map Prod.fst).getD k 0) hne0 hsN hsfree hpsN hnsN
  have hev1 : ((delNodes3 q ((used.map Prod.fst).getD k 0)).getD
      ((used.map Prod.fst).getD k 0) d0).event =
      (nodeAt q ((used.map Prod.fst).getD k 0)).event :=
    del3_event q _ _ hsN hpsN hnsN
  have hev2 : (nodeAt q ((used.map Prod.fst).getD k 0)).event = (used.getD k (0, 0)).2 := by
    have hp := hInv.events (used.getD k (0, 0)) (getD_mem _ _ _ hk)
    rw [← getD_map_fst] at hp
    exact hp
  rw [hev1, hev2] at heval
  have hhf := delHeader_fields q ((used.map Prod.fst).getD k 0)
  refine ⟨_, heval, ?_, hhf.1, by simp only [delNodes3, delNodes2, length_setN], hhf.2.1⟩
  have hdisj := hInv.disj
  refine ⟨?_, ?_, ?_, ?_, ?_, ?_, ?_, ?_, ?_⟩
  · -- perm
    have hLsplit : used.map Prod.fst =
        (used.map Prod.fst).take k ++ (used.map Prod.fst).getD k 0 ::
          (used.map Prod.fst).drop (k + 1) := by
      conv_lhs => rw [← List.take_append_drop k (used.map Prod.fst)]
      rw [List.drop_eq_getElem_cons hkL, List.getD_eq_getElem _ _ hkL]
    show (((used.eraseIdx k).map Prod.fst) ++
        ((used.map Prod.fst).getD k 0 :: free)).Perm
      (List.range (delNodes3 q ((used.map Prod.fst).getD k 0)).length)
    rw [map_eraseIdx_comm, List.eraseIdx_eq_take_drop_succ]
    simp only [delNodes3, delNodes2, length_setN]
    rw [List.append_assoc]
    refine (List.Perm.append_left _ List.perm_middle).trans ?_
    rw [← List.cons_append, ← List.append_assoc, ← hLsplit]
    exact hInv.perm
  · simp only [delNodes3, delNodes2, length_setN]
    exact hN
  · rw [hhf.2.1, hInv.count_eq, List.length_eraseIdx, if_pos hk]
  · -- used_head
    rw [hhf.2.2.2, map_eraseIdx_comm]
    by_cases hc1 : q.header.count = 1
    · rw [if_pos hc1]
      have hlen0 : ((used.map Prod.fst).eraseIdx k).length = 0 := by
        rw [List.length_eraseIdx, if_pos hkL]
        have hcc : q.header.count = used.length := hInv.count_eq
        simp only [List.length_map]
        omega
      rw [List.length_eq_zero.mp hlen0]
      rfl
    · rw [if_neg hc1]
      have hn2 : 2 ≤ (used.map Prod.fst).length := by
        rw [hInv.count_eq] at hc1
        simp only [List.length_map]
        omega
      have hlen1 : 0 < ((used.map Prod.fst).eraseIdx k).length := by
        rw [List.length_eraseIdx, if_pos hkL]
        omega
      have hne_nil : (used.map Prod.fst).eraseIdx k ≠ [] := by
        intro hEq
        rw [hEq] at hlen1
        simp at hlen1
      rw [headD_eq_getD ((used.map Prod.fst).eraseIdx k) NULL 0 hne_nil]
      rw [getD_eraseIdx _ _ _ _ hkL]
      have huh0 : q.header.used_head = (used.map Prod.fst).getD 0 0 := by
        rw [hInv.uhead]
        exact headD_eq_getD _ _ _ (by intro hEq; rw [hEq] at hn0; simp at hn0)
      by_cases hc2 : q.header.used_head = (used.map Prod.fst).getD k 0
      · rw [if_pos hc2]
        have hk0 : k = 0 := by
          rw [huh0] at hc2
          exact (nodup_getD_inj _ _ hInv.nodup_used _ _ hn0 hkL hc2).symm
        subst hk0
        rw [if_neg (by omega)]
        rw [hns_eq, Nat.mod_eq_of_lt (by omega : 0 + 1 < (used.map Prod.fst).length)]
        have hb : (used.map Prod.fst).getD (0 + 1) 0 < q.nodes.length :=
          hInv.used_lt _ (getD_mem _ _ _ (by omega))
        exact Nat.mod_eq_of_lt (by omega)
      · rw [if_neg hc2]
        have hk0 : k ≠ 0 := by
          intro hEq
          subst hEq
          exact hc2 huh0
        rw [if_pos (by omega)]
        exact huh0
  · -- free_head
    rw [hhf.2.2.1, List.headD_cons]
    exact hsmod
  · -- CycNext
    by_cases hn1 : q.header.count = 1
    · intro i hi
      exfalso
      rw [hInv.count_eq] at hn1
      rw [List.length_map, List.length_eraseIdx, if_pos hk, hn1] at hi
      omega
    · have hn2 : 2 ≤ (used.map Prod.fst).length := by
        rw [hInv.count_eq] at hn1
        simp only [List.length_map]
        omega
      have hrot_eq : (used.map Prod.fst).rotate k =
          (used.map Prod.fst).getD k 0 ::
            ((used.map Prod.fst).drop (k + 1) ++ (used.map Prod.fst).take k) := by
        rw [List.rotate_eq_drop_append_take (le_of_lt hkL), List.drop_eq_getElem_cons hkL,
          List.getD_eq_getElem _ _ hkL]
        rfl
      have hcn_rot := cycNext_rotate q _ hInv.cnext k
      have hcp_rot := cycPrev_rotate q _ hInv.cprev k
      rw [hrot_eq] at hcn_rot hcp_rot
      have hnd_rot : ((used.map Prod.fst).getD k 0 ::
          ((used.map Prod.fst).drop (k + 1) ++ (used.map Prod.fst).take k)).Nodup := by
        rw [← hrot_eq]
        exact List.nodup_rotate.mpr hInv.nodup_used
      have hlt_rot : ∀ x ∈ (used.map Prod.fst).getD k 0 ::
          ((used.map Prod.fst).drop (k + 1) ++ (used.map Prod.fst).take k),
          x < q.nodes.length := by
        intro x hx
        rw [← hrot_eq] at hx
        exact hInv.used_lt x (List.mem_rotate.mp hx)
      have hrest_len : ((used.map Prod.fst).drop (k + 1) ++
          (used.map Prod.fst).take k).length = (used.map Prod.fst).length - 1 := by
        rw [List.length_append, List.length_drop, List.length_take]
        omega
      have hcore := del_chain_head q ((used.map Prod.fst).getD k 0) _
        (delHeader q ((used.map Prod.fst).getD k 0)) hcn_rot hcp_rot hnd_rot hlt_rot hN
        (by rw [hrest_len]; omega)
      have hdl : ((used.map Prod.fst).drop (k + 1)).length =
          (used.map Prod.fst).length - 1 - k := by
        rw [List.length_drop]
        omega
      have hrot_back : (((used.map Prod.fst).drop (k + 1) ++
          (used.map Prod.fst).take k).rotate ((used.map Prod.fst).length - 1 - k)) =
          (used.map Prod.fst).eraseIdx k := by
        rw [List.rotate_eq_drop_append_take (by rw [hrest_len]; omega), ← hdl,
          List.drop_left, List.take_left, List.eraseIdx_eq_take_drop_succ]
      show CycNext _ ((used.eraseIdx k).map Prod.fst)
      rw [map_eraseIdx_comm, ← hrot_back]
      exact cycNext_rotate _ _ hcore.1 _
  · -- CycPrev
    by_cases hn1 : q.header.count = 1
    · intro i hi
      exfalso
      rw [hInv.count_eq] at hn1
      rw [List.length_map, List.length_eraseIdx, if_pos hk, hn1] at hi
      omega
    · have hn2 : 2 ≤ (used.map Prod.fst).length := by
        rw [hInv.count_eq] at hn1
        simp only [List.length_map]
        omega
      have hrot_eq : (used.map Prod.fst).rotate k =
          (used.map Prod.fst).getD k 0 ::
            ((used.map Prod.fst).drop (k + 1) ++ (used.map Prod.fst).take k) := by
        rw [List.rotate_eq_drop_append_take (le_of_lt hkL), List.drop_eq_getElem_cons hkL,
          List.getD_eq_getElem _ _ hkL]
        rfl
      have hcn_rot := cycNext_rotate q _ hInv.cnext k
      have hcp_rot := cycPrev_rotate q _ hInv.cprev k
      rw [hrot_eq] at hcn_rot hcp_rot
      have hnd_rot : ((used.map Prod.fst).getD k 0 ::
          ((used.map Prod.fst).drop (k + 1) ++ (used.map Prod.fst).take k)).Nodup := by
        rw [← hrot_eq]
        exact List.nodup_rotate.mpr hInv.nodup_used
      have hlt_rot : ∀ x ∈ (used.map Prod.fst).getD k 0 ::
          ((used.map Prod.fst).drop (k + 1) ++ (used.map Prod.fst).take k),
          x < q.nodes.length := by
        intro x hx
        rw [← hrot_eq] at hx
        exact hInv.used_lt x (List.mem_rotate.mp hx)
      have hrest_len : ((used.map Prod.fst).drop (k + 1) ++
          (used.map Prod.fst).take k).length = (used.map Prod.fst).length - 1 := by
        rw [List.length_append, List.length_drop, List.length_take]
        omega
      have hcore := del_chain_head q ((used.map Prod.fst).getD k 0) _
        (delHeader q ((used.map Prod.fst).getD k 0)) hcn_rot hcp_rot hnd_rot hlt_rot hN
        (by rw [hrest_len]; omega)
      have hdl : ((used.map Prod.fst).drop (k + 1)).length =
          (used.map Prod.fst).length - 1 - k := by
        rw [List.length_drop]
        omega
      have hrot_back : (((used.map Prod.fst).drop (k + 1) ++
          (used.map Prod.fst).take k).rotate ((used.map Prod.fst).length - 1 - k)) =
          (used.map Prod.fst).eraseIdx k := by
        rw [List.rotate_eq_drop_append_take (by rw [hrest_len]; omega), ← hdl,
          List.drop_left, List.take_left, List.eraseIdx_eq_take_drop_succ]
      show CycPrev _ ((used.eraseIdx k).map Prod.fst)
      rw [map_eraseIdx_comm, ← hrot_back]
      exact cycPrev_rotate _ _ hcore.2 _
  · -- free chain
    intro j hj
    cases j with
    | zero =>
      simp only [List.getD_cons_zero, nodeAt]
      rw [del3_node_s q _ hsN hpsN hnsN]
      refine ⟨?_, rfl⟩
      show q.header.free_head % 65536 =
        ((used.map Prod.fst).getD k 0 :: free).getD 1 NULL
      rw [hInv.fhead, List.getD_cons_succ, getD_zero_headD]
      exact Nat.mod_eq_of_lt hfree65
    | succ j =>
      simp only [List.length_cons] at hj
      have hmemf : free.getD j 0 ∈ free := getD_mem _ _ _ (by omega)
      have hx1 : free.getD j 0 ≠ (used.map Prod.fst).getD k 0 := by
        intro hEq
        exact hdisj (hEq ▸ hsmem) hmemf
      have hx2 : free.getD j 0 ≠ (nodeAt q ((used.map Prod.fst).getD k 0)).prev := by
        intro hEq
        exact hdisj (hEq ▸ hps_mem) hmemf
      have hx3 : free.getD j 0 ≠ (nodeAt q ((used.map Prod.fst).getD k 0)).next := by
        intro hEq
        exact hdisj (hEq ▸ hns_mem) hmemf
      simp only [List.getD_cons_succ, nodeAt]
      rw [del3_node_preserved q _ _ hx1 hx2 hx3]
      exact hInv.fchain j (by omega)
  · -- events
    intro p hp
    have hpmem : p ∈ used := (List.eraseIdx_sublist used k).subset hp
    simp only [nodeAt]
    rw [del3_event q _ _ hsN hpsN hnsN]
    exact hInv.events p hpmem

theorem getD_range (n i : Nat) (d : Nat) (h : i < n) : (List.range n).getD i d = i := by
  rw [List.getD_eq_getElem _ _ (by rw [List.length_range]; exact h)]
  exact List.getElem_range _ _

theorem nodeAt_init (N j : Nat) (h : j < N) :
    nodeAt (dllInit N) j =
      { next := if j + 1 = N then NULL else (j + 1) % 65536, prev := NULL, event := 0 } := by
  unfold nodeAt dllInit
  rw [List.getD_eq_getElem _ _ (by simp only [List.length_map, List.length_range]; exact h)]
  rw [List.getElem_map]
  rw [List.getElem_range]

/-- The invariant holds right after `init` on a positive capacity: empty
journal, free chain `0, 1, …, N-1`. -/
theorem dllInit_inv (N : Nat) (h0 : 0 < N) (hN : N ≤ 65535) :
    DLLInv (dllInit N) [] (List.range N) := by
  refine ⟨?_, ?_, rfl, rfl, ?_, ?_, ?_, ?_, ?_⟩
  · simp [dllInit]
  · simp only [dllInit, List.length_map, List.length_range]
    exact hN
  · show (0 : Nat) = (List.range N).headD NULL
    cases N with
    | zero => omega
    | succ m => rw [List.range_succ_eq_map, List.headD_cons]
  · intro i hi
    simp only [List.map_nil, List.length_nil] at hi
    omega
  · intro i hi
    simp only [List.map_nil, List.length_nil] at hi
    omega
  · intro j hj
    rw [List.length_range] at hj
    rw [getD_range _ _ _ hj, nodeAt_init _ _ hj]
    refine ⟨?_, rfl⟩
    by_cases hjN : j + 1 = N
    · rw [if_pos hjN]
      rw [List.getD_eq_getElem?_getD, List.getElem?_eq_none (by rw [List.length_range]; omega)]
      rfl
    · rw [if_neg hjN, getD_range _ _ _ (by omega), Nat.mod_eq_of_lt (by omega)]
  · intro p hp
    simp at hp

/-- The iterator visits precisely the journal suffix that starts at the
`j`-th live slot. -/
theorem dllIterFrom_spec (q : DLLEventQueue) (used : List (Nat × Nat)) (free : List Nat)
    (hInv : DLLInv q used free) : ∀ (m j : Nat), j + m = used.length →
    dllIterFrom q ((used.map Prod.fst).getD j 0) m = some (used.drop j) := by
  intro m
  induction m with
  | zero =>
    intro j hj
    rw [dllIterFrom]
    have hdrop : used.drop j = [] := by
      have h1 : j = used.length := by omega
      rw [h1, List.drop_length]
    rw [hdrop]
  | succ m ih =>
    intro j hj
    have hjL : j < (used.map Prod.fst).length := by
      rw [List.length_map]
      omega
    have hjU : j < used.length := by omega
    rw [dllIterFrom]
    have hslot : q.nodes[(used.map Prod.fst).getD j 0]? =
        some (nodeAt q ((used.map Prod.fst).getD j 0)) :=
      getElem?_getD _ _ _ (hInv.used_lt _ (getD_mem _ _ _ hjL))
    simp only [hslot]
    have hrec : dllIterFrom q (nodeAt q ((used.map Prod.fst).getD j 0)).next m =
        some (used.drop (j + 1)) := by
      have hnext := hInv.cnext j hjL
      cases m with
      | zero =>
        rw [dllIterFrom]
        have hdrop : used.drop (j + 1) = [] := by
          have h1 : j + 1 = used.length := by omega
          rw [h1, List.drop_length]
        rw [hdrop]
      | succ m2 =>
        rw [hnext, Nat.mod_eq_of_lt (by rw [List.length_map]; omega)]
        exact ih (j + 1) (by omega)
    simp only [hrec]
    have hpair : ((used.map Prod.fst).getD j 0,
        (nodeAt q ((used.map Prod.fst).getD j 0)).event) = used.getD j (0, 0) := by
      have hfst := getD_map_fst used j
      have hsnd := hInv.events (used.getD j (0, 0)) (getD_mem _ _ _ hjU)
      rw [← hfst] at hsnd
      rw [hsnd, hfst]
    rw [hpair]
    have hdropc : used.drop j = used.getD j (0, 0) :: used.drop (j + 1) := by
      rw [List.drop_eq_getElem_cons hjU, List.getD_eq_getElem _ _ hjU]
    rw [hdropc]

/-- The iterator yields exactly the journal. -/
theorem dllIterPairs_inv (q : DLLEventQueue) (used : List (Nat × Nat)) (free : List Nat)
    (hInv : DLLInv q used free) : q.iterPairs = some used := by
  unfold DLLEventQueue.iterPairs
  rw [hInv.count_eq, hInv.uhead]
  cases used with
  | nil => rfl
  | cons u us =>
    have h0 := dllIterFrom_spec q (u :: us) free hInv (u :: us).length 0 (by omega)
    rw [List.drop_zero] at h0
    rw [headD_eq_getD _ _ 0 (by simp)]
    simpa using h0

/-- Walking the free chain from its head with enough fuel returns exactly
the chain. -/
theorem freeWalk_spec (q : DLLEventQueue) : ∀ (fl : List Nat) (fuel : Nat),
    FreeChainInv q fl → (∀ x ∈ fl, x < NULL) → fl.length ≤ fuel →
    freeWalk q (fl.headD NULL) fuel = fl := by
  intro fl
  induction fl with
  | nil =>
    intro fuel _ _ _
    cases fuel with
    | zero => rfl
    | succ m => rfl
  | cons f fs ih =>
    intro fuel hchain hbound hfuel
    cases fuel with
    | zero => simp at hfuel
    | succ m =>
      rw [freeWalk, List.headD_cons]
      rw [if_neg (by have h1 := hbound f (by simp); omega)]
      congr 1
      have hnext : (nodeAt q f).next = fs.headD NULL := by
        have h1 := (hchain 0 (by simp)).1
        simp only [List.getD_cons_zero, List.getD_cons_succ] at h1
        rw [h1, getD_zero_headD]
      rw [hnext]
      refine ih m ?_ ?_ (by simp only [List.length_cons] at hfuel; omega)
      · intro j hj
        have h2 := hchain (j + 1) (by simp only [List.length_cons]; omega)
        simpa [List.getD_cons_succ] using h2
      · intro x hx
        exact hbound x (List.mem_cons_of_mem _ hx)

/-- In an invariant state, the `prev` link of every live slot names a live
slot. -/
theorem DLLInv.used_prev_mem {q : DLLEventQueue} {used : List (Nat × Nat)} {free : List Nat}
    (hInv : DLLInv q used free) (j : Nat) (hj : j < (used.map Prod.fst).length) :
    (nodeAt q ((used.map Prod.fst).getD j 0)).prev ∈ used.map Prod.fst := by
  have hn0 : 0 < (used.map Prod.fst).length := by omega
  have hmodk : ((j + (used.map Prod.fst).length - 1) % (used.map Prod.fst).length + 1) %
      (used.map Prod.fst).length = j := by
    by_cases hj0 : j = 0
    · subst hj0
      rw [Nat.zero_add, Nat.mod_eq_of_lt
        (show (used.map Prod.fst).length - 1 < (used.map Prod.fst).length by omega)]
      have h3 : (used.map Prod.fst).length - 1 + 1 = (used.map Prod.fst).length := by omega
      rw [h3, Nat.mod_self]
    · have h1 : j + (used.map Prod.fst).length - 1 = (j - 1) + (used.map Prod.fst).length := by
        omega
      rw [h1, Nat.add_mod_right, Nat.mod_eq_of_lt
        (show j - 1 < (used.map Prod.fst).length by omega)]
      have h3 : j - 1 + 1 = j := by omega
      rw [h3, Nat.mod_eq_of_lt (by omega)]
  have h1 := hInv.cprev ((j + (used.map Prod.fst).length - 1) % (used.map Prod.fst).length)
    (Nat.mod_lt _ hn0)
  rw [hmodk] at h1
  rw [h1]
  exact getD_mem _ _ _ (Nat.mod_lt _ hn0)

/-- A successful `delete_slot` under the invariant can only hit a journal
slot. -/
theorem dll_delete_success_index (q : DLLEventQueue) (used : List (Nat × Nat))
    (free : List Nat) (s e : Nat) (q1 : DLLEventQueue) (hInv : DLLInv q used free)
    (h : q.delete_slot s = some (Except.ok e, q1)) :
    ∃ k, k < used.length ∧ (used.map Prod.fst).getD k 0 = s := by
  by_cases h0 : q.header.count = 0
  · rw [DLLEventQueue.delete_slot, if_pos h0] at h
    simp at h
  · cases hg : q.nodes[s]? with
    | none =>
      rw [DLLEventQueue.delete_slot, if_neg h0] at h
      simp only [hg] at h
      exact Option.noConfusion h
    | some n =>
      have hsN : s < q.nodes.length := by
        by_contra hc
        rw [List.getElem?_eq_none (by omega)] at hg
        exact Option.noConfusion hg
      have hnval : n = nodeAt q s := by
        rw [getElem?_getD q.nodes s d0 hsN] at hg
        injection hg with hg
        exact hg.symm
      by_cases hf : n.is_free
      · rw [DLLEventQueue.delete_slot, if_neg h0] at h
        simp only [hg, hf, if_pos] at h
        simp at h
      · have hmem : s ∈ used.map Prod.fst ++ free := by
          have h1 : s ∈ List.range q.nodes.length := List.mem_range.mpr hsN
          exact hInv.perm.symm.subset h1
        rw [List.mem_append] at hmem
        cases hmem with
        | inl hmem =>
          obtain ⟨k, hk, hks⟩ := List.getElem_of_mem hmem
          refine ⟨k, by simpa using hk, ?_⟩
          rw [List.getD_eq_getElem _ _ hk]
          exact hks
        | inr hmem =>
          exfalso
          obtain ⟨k, hk, hks⟩ := List.getElem_of_mem hmem
          have h1 := (hInv.fchain k hk).2
          rw [List.getD_eq_getElem _ _ hk, hks] at h1
          rw [hnval] at hf
          apply hf
          simp only [Node.is_free, h1]
          rfl
      
/-- With distinct journal slots, dropping the entry at slot `s` is erasing
its index. -/
theorem filter_fst_ne_eraseIdx : ∀ (used : List (Nat × Nat)) (k : Nat),
    k < used.length → (used.map Prod.fst).Nodup →
    used.filter (fun p => p.1 != (used.map Prod.fst).getD k 0) = used.eraseIdx k := by
  intro used
  induction used with
  | nil =>
    intro k hk _
    simp at hk
  | cons u t ih =>
    intro k hk hnd
    rw [List.map_cons, List.nodup_cons] at hnd
    cases k with
    | zero =>
      simp only [List.map_cons, List.getD_cons_zero, List.eraseIdx_cons_zero]
      rw [List.filter_cons]
      rw [if_neg (by simp)]
      rw [List.filter_eq_self.mpr]
      intro p hp
      rw [bne_iff_ne]
      intro hEq
      exact hnd.1 (hEq ▸ List.mem_map_of_mem Prod.fst hp)
    | succ k =>
      simp only [List.map_cons, List.getD_cons_succ, List.eraseIdx_cons_succ]
      rw [List.filter_cons]
      rw [if_pos ?hu]
      case hu =>
        rw [bne_iff_ne]
        intro hEq
        have hkt : k < (t.map Prod.fst).length := by
          simp only [List.length_map]
          simp only [List.length_cons] at hk
          omega
        exact hnd.1 (hEq ▸ getD_mem _ _ _ hkt)
      rw [ih k (by simp only [List.length_cons] at hk; omega) hnd.2]

theorem push_back_seq (q : DLLEventQueue) (v : Nat) (q' : DLLEventQueue)
    (h : q.push_back v = some q') : q'.header.seq_num = q.header.seq_num + 1 := by
  unfold DLLEventQueue.push_back at h
  split at h
  · exact Option.noConfusion h
  · dsimp only at h
    split at h
    · split at h
      · exact Option.noConfusion h
      · split at h
        · exact Option.noConfusion h
        · injection h with h2
          subst h2
          rfl
    · split at h
      · exact Option.noConfusion h
      · split at h
        · exact Option.noConfusion h
        · split at h
          · exact Option.noConfusion h
          · split at h
            · exact Option.noConfusion h
            · split at h
              · exact Option.noConfusion h
              · injection h with h2
                subst h2
                rfl

theorem delete_slot_seq (q : DLLEventQueue) (s : Nat)
    (res : Except Unit Nat × DLLEventQueue)
    (h : q.delete_slot s = some res) : res.2.header.seq_num = q.header.seq_num := by
  unfold DLLEventQueue.delete_slot at h
  split at h
  · injection h with h2
    subst h2
    rfl
  · dsimp only at h
    split at h
    · exact Option.noConfusion h
    · split at h
      · injection h with h2
        subst h2
        rfl
      · split at h
        · exact Option.noConfusion h
        · split at h
          · exact Option.noConfusion h
          · split at h
            · exact Option.noConfusion h
            · split at h
              · exact Option.noConfusion h
              · injection h with h2
                subst h2
                dsimp only
                split
                · rfl
                · split
                  · rfl
                  · rfl

/-! Run-level theorems: the journal run preserves the structural invariant,
agrees with the plain run, and accounts for seq_num and journal length. -/

theorem dllRunModel_inv : ∀ (ops : List DLLOp) (q : DLLEventQueue)
    (used : List (Nat × Nat)) (free : List Nat), DLLInv q used free →
    ∀ (q' : DLLEventQueue) (used' : List (Nat × Nat)),
    dllRunModel q used ops = some (q', used') →
    ∃ free', DLLInv q' used' free' ∧ q'.nodes.length = q.nodes.length := by
  intro ops
  induction ops with
  | nil =>
    intro q used free hInv q' used' h
    simp only [dllRunModel, Option.some.injEq, Prod.mk.injEq] at h
    obtain ⟨h1, h2⟩ := h
    subst h1
    subst h2
    exact ⟨free, hInv, rfl⟩
  | cons op ops ih =>
    cases op with
    | push v =>
      intro q used free hInv q' used' h
      simp only [dllRunModel] at h
      cases hp : q.push_back v with
      | none =>
        simp only [hp] at h
        exact Option.noConfusion h
      | some q1 =>
        cases free with
        | nil =>
          exfalso
          have hfull : q.header.count = q.nodes.length := by
            have h1 := hInv.length_sum
            rw [hInv.count_eq]
            simpa using h1
          unfold DLLEventQueue.push_back at hp
          rw [if_pos hfull] at hp
          exact Option.noConfusion hp
        | cons f fs =>
          obtain ⟨q2, hq2, hInv2, _, _, hlen⟩ := dll_push_preserve q used f fs v hInv
          rw [hp] at hq2
          injection hq2 with hq2
          subst hq2
          have hfh : q.header.free_head = f := by
            rw [hInv.fhead]
            rfl
          simp only [hp, hfh] at h
          obtain ⟨free2, hI, hL⟩ := ih q1 (used ++ [(f, v)]) fs hInv2 q' used' h
          exact ⟨free2, hI, by rw [hL, hlen]⟩
    | del s =>
      intro q used free hInv q' used' h
      simp only [dllRunModel] at h
      cases hd : q.delete_slot s with
      | none =>
        simp only [hd] at h
        exact Option.noConfusion h
      | some r =>
        obtain ⟨res, q1⟩ := r
        cases res with
        | error e =>
          simp only [hd] at h
          exact Option.noConfusion h
        | ok e =>
          simp only [hd] at h
          obtain ⟨k, hk, hks⟩ := dll_delete_success_index q used free s e q1 hInv hd
          obtain ⟨q2, hq2, hInv2, _, hlen, _⟩ := dll_delete_preserve q used free k hk hInv
          rw [hks, hd] at hq2
          injection hq2 with hq2
          injection hq2 with hq2a hq2b
          subst hq2b
          have hfe := filter_fst_ne_eraseIdx used k hk hInv.nodup_used
          rw [hks] at hfe
          rw [hfe] at h
          obtain ⟨free2, hI, hL⟩ := ih q1 (used.eraseIdx k) _ hInv2 q' used' h
          exact ⟨free2, hI, by rw [hL, hlen]⟩

theorem dllRun_eq_model : ∀ (ops : List DLLOp) (q : DLLEventQueue)
    (m : List (Nat × Nat)),
    dllRun q ops = (dllRunModel q m ops).map Prod.fst := by
  intro ops
  induction ops with
  | nil =>
    intro q m
    rfl
  | cons op ops ih =>
    cases op with
    | push v =>
      intro q m
      simp only [dllRun, dllRunModel]
      cases hp : q.push_back v with
      | none => rfl
      | some q1 => exact ih q1 _
    | del s =>
      intro q m
      simp only [dllRun, dllRunModel]
      cases hd : q.delete_slot s with
      | none => rfl
      | some r =>
        obtain ⟨res, q1⟩ := r
        cases res with
        | error e => rfl
        | ok e => exact ih q1 _

theorem dllRun_seq : ∀ (ops : List DLLOp) (q q' : DLLEventQueue),
    dllRun q ops = some q' →
    q'.header.seq_num = q.header.seq_num + dllPushCount ops := by
  intro ops
  induction ops with
  | nil =>
    intro q q' h
    simp only [dllRun, Option.some.injEq] at h
    subst h
    rfl
  | cons op ops ih =>
    cases op with
    | push v =>
      intro q q' h
      simp only [dllRun] at h
      cases hp : q.push_back v with
      | none =>
        simp only [hp] at h
        exact Option.noConfusion h
      | some q1 =>
        simp only [hp] at h
        have h1 := ih q1 q' h
        have h2 := push_back_seq q v q1 hp
        simp only [dllPushCount]
        omega
    | del s =>
      intro q q' h
      simp only [dllRun] at h
      cases hd : q.delete_slot s with
      | none =>
        simp only [hd] at h
        exact Option.noConfusion h
      | some r =>
        obtain ⟨res, q1⟩ := r
        cases res with
        | error e =>
          simp only [hd] at h
          exact Option.noConfusion h
        | ok e =>
          simp only [hd] at h
          have h1 := ih q1 q' h
          have h2 := delete_slot_seq q s (Except.ok e, q1) hd
          simp only [dllPushCount]
          simp only at h2
          omega

theorem dllPushCount_append : ∀ (a b : List DLLOp),
    dllPushCount (a ++ b) = dllPushCount a + dllPushCount b := by
  intro a b
  induction a with
  | nil => simp [dllPushCount]
  | cons op t ih =>
    cases op with
    | push v =>
      simp only [List.cons_append, dllPushCount, List.append_eq, ih]
      omega
    | del s =>
      simp only [List.cons_append, dllPushCount, List.append_eq, ih]

theorem dllPushCount_map_push : ∀ (vs : List Nat),
    dllPushCount (vs.map DLLOp.push) = vs.length := by
  intro vs
  induction vs with
  | nil => rfl
  | cons v t ih => simp only [List.map_cons, dllPushCount, ih, List.length_cons]

theorem dllPushCount_map_del : ∀ (ds : List Nat),
    dllPushCount (ds.map DLLOp.del) = 0 := by
  intro ds
  induction ds with
  | nil => rfl
  | cons d t ih => simp only [List.map_cons, dllPushCount, ih]

theorem dllRunModel_append : ∀ (a b : List DLLOp) (q : DLLEventQueue)
    (m : List (Nat × Nat)),
    dllRunModel q m (a ++ b) =
      match dllRunModel q m a with
      | some (q1, m1) => dllRunModel q1 m1 b
      | none => none := by
  intro a
  induction a with
  | nil =>
    intro b q m
    rfl
  | cons op t ih =>
    intro b q m
    cases op with
    | push v =>
      simp only [List.cons_append, dllRunModel]
      cases hp : q.push_back v with
      | none => rfl
      | some q1 => exact ih b q1 _
    | del s =>
      simp only [List.cons_append, dllRunModel]
      cases hd : q.delete_slot s with
      | none => rfl
      | some r =>
        obtain ⟨res, q1⟩ := r
        cases res with
        | error e => rfl
        | ok e => exact ih b q1 _

theorem dllRunModel_push_len : ∀ (vs : List Nat) (q : DLLEventQueue)
    (m : List (Nat × Nat)) (q' : DLLEventQueue) (m' : List (Nat × Nat)),
    dllRunModel q m (vs.map DLLOp.push) = some (q', m') →
    m'.length = m.length + vs.length := by
  intro vs
  induction vs with
  | nil =>
    intro q m q' m' h
    simp only [List.map_nil, dllRunModel, Option.some.injEq, Prod.mk.injEq] at h
    obtain ⟨h1, h2⟩ := h
    subst h2
    simp
  | cons v t ih =>
    intro q m q' m' h
    simp only [List.map_cons, dllRunModel] at h
    cases hp : q.push_back v with
    | none =>
      simp only [hp] at h
      exact Option.noConfusion h
    | some q1 =>
      simp only [hp] at h
      have h1 := ih q1 _ q' m' h
      simp only [List.length_append, List.length_cons, List.length_nil] at h1
      simp only [List.length_cons]
      omega

theorem dllRunModel_del_len : ∀ (ds : List Nat) (q : DLLEventQueue)
    (used : List (Nat × Nat)) (free : List Nat), DLLInv q used free →
    ∀ (q' : DLLEventQueue) (used' : List (Nat × Nat)),
    dllRunModel q used (ds.map DLLOp.del) = some (q', used') →
    used'.length + ds.length = used.length := by
  intro ds
  induction ds with
  | nil =>
    intro q used free hInv q' used' h
    simp only [List.map_nil, dllRunModel, Option.some.injEq, Prod.mk.injEq] at h
    obtain ⟨h1, h2⟩ := h
    subst h2
    simp
  | cons s t ih =>
    intro q used free hInv q' used' h
    simp only [List.map_cons, dllRunModel] at h
    cases hd : q.delete_slot s with
    | none =>
      simp only [hd] at h
      exact Option.noConfusion h
    | some r =>
      obtain ⟨res, q1⟩ := r
      cases res with
      | error e =>
        simp only [hd] at h
        exact Option.noConfusion h
      | ok e =>
        simp only [hd] at h
        obtain ⟨k, hk, hks⟩ := dll_delete_success_index q used free s e q1 hInv hd
        obtain ⟨q2, hq2, hInv2, _, _, _⟩ := dll_delete_preserve q used free k hk hInv
        rw [hks, hd] at hq2
        injection hq2 with hq2
        injection hq2 with hq2a hq2b
        subst hq2b
        have hfe := filter_fst_ne_eraseIdx used k hk hInv.nodup_used
        rw [hks] at hfe
        rw [hfe] at h
        have h1 := ih q1 (used.eraseIdx k) _ hInv2 q' used' h
        rw [List.length_eraseIdx, if_pos hk] at h1
        simp only [List.length_cons]
        omega

/-- C3: starting from an initialised linked queue, after any sequence of
successful push_back and delete_slot calls, iterating the queue yields
exactly the pushed-and-not-deleted elements in their original relative
insertion order (the journal kept by `dllRunModel`). -/
theorem C3_order_preservation (N : Nat) (ops : List DLLOp) (q : DLLEventQueue)
    (model : List (Nat × Nat)) (h0 : 0 < N) (hN : N ≤ 65535)
    (hrun : dllRunModel (dllInit N) [] ops = some (q, model)) :
    q.iterPairs = some model := by
  obtain ⟨free2, hI, _⟩ := dllRunModel_inv ops (dllInit N) [] (List.range N)
    (dllInit_inv N h0 hN) q model hrun
  exact dllIterPairs_inv q model free2 hI

theorem C3_witness : DLLEventQueue.iterPairs c3Queue = some [(1, 6)] :=
  C3_order_preservation 2 [DLLOp.push 5, DLLOp.push 6, DLLOp.del 0] c3Queue [(1, 6)]
    (by decide) (by decide) rfl

/-- C6: pushing K elements into an initialised linked queue and then
deleting K live slots (in any order, all calls succeeding) leaves count = 0,
used_head = NULL and seq_num = K; moreover every successful push_back
increments seq_num by exactly 1 and delete_slot never changes seq_num. -/
theorem C6_round_trip (N K : Nat) (vs ds : List Nat) (q' : DLLEventQueue)
    (h0 : 0 < N) (hN : N ≤ 65535) (hvs : vs.length = K) (hds : ds.length = K)
    (hrun : dllRun (dllInit N) (vs.map DLLOp.push ++ ds.map DLLOp.del) = some q') :
    (q'.header.count = 0 ∧ q'.header.used_head = NULL ∧ q'.header.seq_num = K) ∧
    (∀ (q : DLLEventQueue) (v : Nat) (q2 : DLLEventQueue),
      q.push_back v = some q2 → q2.header.seq_num = q.header.seq_num + 1) ∧
    (∀ (q : DLLEventQueue) (s : Nat) (r : Except Unit Nat × DLLEventQueue),
      q.delete_slot s = some r → r.2.header.seq_num = q.header.seq_num) := by
  refine ⟨?_, push_back_seq, delete_slot_seq⟩
  have hseq := dllRun_seq _ _ _ hrun
  rw [dllPushCount_append, dllPushCount_map_push, dllPushCount_map_del] at hseq
  have hmodel := dllRun_eq_model (vs.map DLLOp.push ++ ds.map DLLOp.del) (dllInit N) []
  rw [hrun] at hmodel
  cases hrm : dllRunModel (dllInit N) [] (vs.map DLLOp.push ++ ds.map DLLOp.del) with
  | none =>
    rw [hrm] at hmodel
    exact Option.noConfusion hmodel
  | some r =>
    obtain ⟨qf, mf⟩ := r
    rw [hrm] at hmodel
    simp only [Option.map_some'] at hmodel
    injection hmodel with hmodel
    subst hmodel
    rw [dllRunModel_append] at hrm
    cases hpush : dllRunModel (dllInit N) [] (vs.map DLLOp.push) with
    | none =>
      simp only [hpush] at hrm
      exact Option.noConfusion hrm
    | some r1 =>
      obtain ⟨q1, m1⟩ := r1
      simp only [hpush] at hrm
      have hm1len := dllRunModel_push_len vs (dllInit N) [] q1 m1 hpush
      obtain ⟨free1, hI1, _⟩ := dllRunModel_inv (vs.map DLLOp.push) (dllInit N) []
        (List.range N) (dllInit_inv N h0 hN) q1 m1 hpush
      have hdel_len := dllRunModel_del_len ds q1 m1 free1 hI1 q' mf hrm
      obtain ⟨free2, hI2, _⟩ := dllRunModel_inv (ds.map DLLOp.del) q1 m1 free1 hI1 q' mf hrm
      have hmf0 : mf.length = 0 := by
        simp only [List.length_nil] at hm1len
        omega
      have hmfnil : mf = [] := List.eq_nil_of_length_eq_zero hmf0
      subst hmfnil
      refine ⟨hI2.count_eq, hI2.uhead, ?_⟩
      have hseq0 : (dllInit N).header.seq_num = 0 := rfl
      omega

theorem C6_witness :
    c6Queue.header.count = 0 ∧ c6Queue.header.used_head = NULL ∧
    c6Queue.header.seq_num = 2 :=
  (C6_round_trip 3 2 [3, 4] [1, 0] c6Queue (by decide) (by decide) rfl rfl rfl).1

/-- C7: in every linked-queue state reachable from init by successful calls,
the used chain observed from used_head has exactly count slots, the free
chain observed from free_head has exactly N - count slots, the two chains
partition the N slots, a slot's prev field is NULL exactly when the slot is
on the free chain, and used_head = NULL exactly when count = 0. -/
theorem C7_structural_invariant (N : Nat) (ops : List DLLOp) (q : DLLEventQueue)
    (h0 : 0 < N) (hN : N ≤ 65535)
    (hrun : dllRun (dllInit N) ops = some q) :
    q.iterPairs.isSome = true ∧
    (usedChain q).length = q.header.count ∧
    (freeChain q).length = N - q.header.count ∧
    (usedChain q ++ freeChain q).Perm (List.range N) ∧
    (∀ s, s < N → ((nodeAt q s).prev = NULL ↔ s ∈ freeChain q)) ∧
    (q.header.used_head = NULL ↔ q.header.count = 0) := by
  have hmodel := dllRun_eq_model ops (dllInit N) []
  rw [hrun] at hmodel
  cases hrm : dllRunModel (dllInit N) [] ops with
  | none =>
    rw [hrm] at hmodel
    exact Option.noConfusion hmodel
  | some r =>
    obtain ⟨qf, used⟩ := r
    rw [hrm] at hmodel
    simp only [Option.map_some'] at hmodel
    injection hmodel with hmodel
    subst hmodel
    obtain ⟨free, hI, hlen⟩ := dllRunModel_inv ops (dllInit N) [] (List.range N)
      (dllInit_inv N h0 hN) q used hrm
    have hlenN : q.nodes.length = N := by
      rw [hlen]
      simp [dllInit]
    have hiter := dllIterPairs_inv q used free hI
    have huc : usedChain q = used.map Prod.fst := by
      unfold usedChain
      rw [hiter]
      rfl
    have hfree_lt : ∀ x ∈ free, x < NULL := by
      intro x hx
      have h1 := hI.free_lt x hx
      have h2 := hI.small
      unfold NULL
      omega
    have hfc : freeChain q = free := by
      unfold freeChain
      rw [hI.fhead]
      exact freeWalk_spec q free q.nodes.length hI.fchain hfree_lt
        (by have := hI.length_sum; omega)
    have hsum := hI.length_sum
    have hcount := hI.count_eq
    refine ⟨?_, ?_, ?_, ?_, ?_, ?_⟩
    · rw [hiter]
      rfl
    · rw [huc, List.length_map, hcount]
    · rw [hfc, hcount]
      omega
    · rw [huc, hfc, ← hlenN]
      exact hI.perm
    · intro s hs
      constructor
      · intro hprev
        rw [hfc]
        have hmem : s ∈ used.map Prod.fst ++ free := by
          apply hI.perm.symm.subset
          rw [hlenN]
          exact List.mem_range.mpr hs
        cases List.mem_append.mp hmem with
        | inr h => exact h
        | inl h =>
          exfalso
          obtain ⟨j, hj, hje⟩ := List.getElem_of_mem h
          have hjd : (used.map Prod.fst).getD j 0 = s := by
            rw [List.getD_eq_getElem _ _ hj, hje]
          have hpm := hI.used_prev_mem j hj
          rw [hjd] at hpm
          have hlt := hI.used_lt _ hpm
          have hsm := hI.small
          rw [hprev] at hlt
          unfold NULL at hlt
          omega
      · intro hmem
        rw [hfc] at hmem
        obtain ⟨j, hj, hje⟩ := List.getElem_of_mem hmem
        have hjd : free.getD j 0 = s := by
          rw [List.getD_eq_getElem _ _ hj, hje]
        have hch := (hI.fchain j hj).2
        rw [hjd] at hch
        exact hch
    · rw [hI.uhead, hcount]
      cases used with
      | nil => simp
      | cons u us =>
        constructor
        · intro hh
          exfalso
          have hu : u.1 ∈ (u :: us).map Prod.fst := by simp
          have hlt := hI.used_lt _ hu
          have hsm := hI.small
          simp only [List.map_cons, List.headD_cons] at hh
          rw [hh] at hlt
          unfold NULL at hlt
          omega
        · intro hc
          simp at hc

theorem C7_witness :
    (DLLEventQueue.iterPairs c7Queue).isSome = true ∧
    (usedChain c7Queue).length = c7Queue.header.count ∧
    (freeChain c7Queue).length = 2 - c7Queue.header.count ∧
    (usedChain c7Queue ++ freeChain c7Queue).Perm (List.range 2) ∧
    ((nodeAt c7Queue 1).prev = NULL ↔ 1 ∈ freeChain c7Queue) ∧
    (c7Queue.header.used_head = NULL ↔ c7Queue.header.count = 0) := by
  have h := C7_structural_invariant 2 [DLLOp.push 5] c7Queue (by decide) (by decide) rfl
  exact ⟨h.1, h.2.1, h.2.2.1, h.2.2.2.1, h.2.2.2.2.1 1 (by decide), h.2.2.2.2.2⟩
